import Mathlib

/-!
# DFRobot_GP8302: a shallow embedding of the current-DAC driver

The driver class of `src/DFRobot_GP8302.h` is embedded as pure functions over an
explicit device record and an explicit model of the two-wire bus.

* `uint8_t` / `uint16_t` values are natural numbers; where the source stores into a
  `uint16_t` the stored value is reduced modulo `2 ^ 16`.
* `float` values are IEEE 754 binary32 numbers and `double` values binary64 numbers,
  each represented by the rational it denotes. Every floating-point operation of lines
  64-75 rounds its exact result to the format of its C++ type, to nearest with ties to
  even (`fl32`, `fl64`). After the clamping of lines 64-65 no operand of those lines
  exceeds `2 ^ 21` in magnitude, so overflow cannot arise and is not modelled. Integer
  operands are below `2 ^ 16` in magnitude, so their conversion to `float` or `double` is
  exact and is not written out. The argument of `output` may be any rational; the
  currents a caller can pass are the binary32 values, those `m` with `fl32 m = m`.
  The value `output_mA` returns (line 60) is kept exact; it is within `1.2e-6` of the
  binary32 value.
* A floating-point value converted to `uint16_t` is truncated toward zero; when the
  truncated value does not fit the conversion has no defined result in C++, which
  the embedding records as `none`.
* Integer sub-expressions are evaluated as in C++ with a 32-bit `int`: the difference
  `_dac_20 - _dac_4` is a signed difference. Whenever `_dac_4 < _dac_20` a 16-bit
  unsigned evaluation gives the same value.
* The `Wire` object and `delay` are external to the repository; they are modelled as a
  transmit buffer plus an append-only trace of bus events.
-/

namespace GP8302

/-! ## Constants (`src/DFRobot_GP8302.h`, lines 1-9) -/

/-- The default I2C address of the module. -/
def GP8302_DEF_I2C_ADDR : ℕ := 0x58
/-- Register selecting the output-current configuration. -/
def GP8302_CONFIG_CURRENT_REG : ℕ := 0x02
/-- Current resolution: 12 bits, `0x0FFF`. -/
def GP8302_CURRENT_RESOLUTION : ℕ := 4095
/-- Maximum output current in mA. -/
def GP8302_MAX_CURRENT : ℕ := 20
/-- Store function timing start head. -/
def GP8302_STORE_TIMING_HEAD : ℕ := 0x02
/-- The first address for entering store timing. -/
def GP8302_STORE_TIMING_ADDR : ℕ := 0x10
/-- The command 1 to enter store timing. -/
def GP8302_STORE_TIMING_CMD1 : ℕ := 0x03
/-- The command 2 to enter store timing. -/
def GP8302_STORE_TIMING_CMD2 : ℕ := 0x00
/-- Store procedure interval delay time in ms. -/
def GP8302_STORE_TIMING_DELAY : ℕ := 10

/-! ## The bus and timing collaborators -/

/-- One observable action on the bus or the clock. -/
inductive BusEvent where
  /-- Global bus initialisation. -/
  | init : BusEvent
  /-- A completed transaction: target address and the bytes written, in order. -/
  | transaction (address : ℕ) (payload : List ℕ) : BusEvent
  /-- A blocking delay of the given number of milliseconds. -/
  | delay (ms : ℕ) : BusEvent
  deriving DecidableEq, Repr

/-- Modelled from the spec: the `Wire` bus transport (Arduino `TwoWire`, not part of
the repository). Section 6 asks for begin-transaction-with-address, write-byte,
end-transaction and global initialisation; the model keeps the pending address and
bytes and the trace of everything that has happened so far. -/
structure TwoWire where
  /-- Address of the transaction being assembled. -/
  txAddress : ℕ
  /-- Bytes queued for the transaction being assembled. -/
  txBuffer : List ℕ
  /-- Everything that has happened on the bus and the clock, oldest first. -/
  trace : List BusEvent
  deriving DecidableEq, Repr

namespace TwoWire

/-- Modelled from the spec: `Wire.begin()`, global bus initialisation. -/
def begin (w : TwoWire) : TwoWire :=
  { w with trace := w.trace ++ [BusEvent.init] }

/-- Modelled from the spec: `Wire.beginTransmission(address)` opens a transaction. -/
def beginTransmission (w : TwoWire) (address : ℕ) : TwoWire :=
  { w with txAddress := address, txBuffer := [] }

/-- Modelled from the spec: `Wire.write(b)` queues one byte in the open transaction. -/
def write (w : TwoWire) (b : ℕ) : TwoWire :=
  { w with txBuffer := w.txBuffer ++ [b] }

/-- Modelled from the spec: `Wire.endTransmission()` closes the transaction, putting
the queued bytes on the bus. The status the transport reports is supplied by the
environment where the driver looks at it. -/
def endTransmission (w : TwoWire) : TwoWire :=
  { w with txBuffer := [], trace := w.trace ++ [BusEvent.transaction w.txAddress w.txBuffer] }

end TwoWire

/-- Modelled from the spec: the blocking `delay(ms)` primitive of the timing
collaborator, recorded on the same trace as the bus traffic. -/
def delay (w : TwoWire) (ms : ℕ) : TwoWire :=
  { w with trace := w.trace ++ [BusEvent.delay ms] }

/-! ## Numeric conversions -/

/-- Discard the fractional part (round toward zero). -/
def truncate (x : ℚ) : ℤ := if 0 ≤ x then ⌊x⌋ else ⌈x⌉

/-- Conversion of a floating-point value to `uint16_t`: truncation toward zero, defined
only when the truncated value is representable, that is for `-1 < x < 65536`. -/
def toUInt16 (x : ℚ) : Option ℕ :=
  if -1 < x ∧ x < 65536 then some (truncate x).toNat else none

/-- The nearest integer, ties going to the even one. -/
def roundHalfEven (x : ℚ) : ℤ :=
  if x - ⌊x⌋ < 1 / 2 then ⌊x⌋
  else if x - ⌊x⌋ > 1 / 2 then ⌊x⌋ + 1
  else if ⌊x⌋ % 2 = 0 then ⌊x⌋ else ⌊x⌋ + 1

/-- The binary exponent a positive `x` is represented with in a format whose smallest
normal exponent is `emin`: `floor (log2 x)`, or `emin` for a subnormal `x`. -/
def exponent (emin : ℤ) (x : ℚ) : ℤ := max (Int.log 2 x) emin

/-- Rounding of a non-negative `x` to a binary format with `p` fraction bits and smallest
normal exponent `emin`: the multiple of `2 ^ (exponent - p)` nearest to `x`, ties to even. -/
def roundMag (p : ℕ) (emin : ℤ) (x : ℚ) : ℚ :=
  if x = 0 then 0 else
    (roundHalfEven (x / 2 ^ (exponent emin x - p)) : ℚ) * 2 ^ (exponent emin x - p)

/-- IEEE 754 round-to-nearest, ties-to-even, of any `x`: the sign is kept and the magnitude
rounded. -/
def roundNearestEven (p : ℕ) (emin : ℤ) (x : ℚ) : ℚ :=
  if 0 ≤ x then roundMag p emin x else - roundMag p emin (-x)

/-- The binary32 (`float`) value nearest to `x`. -/
def fl32 (x : ℚ) : ℚ := roundNearestEven 23 (-126) x

/-- The binary64 (`double`) value nearest to `x`. -/
def fl64 (x : ℚ) : ℚ := roundNearestEven 52 (-1022) x

/-! ## The device (`class DFRobot_GP8302`, lines 14-31) -/

/-- The private members of `class DFRobot_GP8302`. -/
structure DFRobot_GP8302 where
  /-- The I2C address. -/
  _twiaddr : ℕ
  /-- Calibration flag. -/
  _calibration : Bool
  /-- DAC value at 4mA. -/
  _dac_4 : ℕ
  /-- DAC value at 20mA. -/
  _dac_20 : ℕ
  /-- Last DAC value set. -/
  _digital : ℕ
  deriving DecidableEq, Repr

namespace DFRobot_GP8302

/-- The constructor (line 31). -/
def new (twiaddr : ℕ) : DFRobot_GP8302 :=
  { _twiaddr := twiaddr, _calibration := false, _dac_4 := 0, _dac_20 := 0, _digital := 0 }

/-- `begin` (lines 33-41): initialise the bus and probe the address with an empty
transaction; `status` is what `Wire.endTransmission()` reports for that probe. -/
def begin (s : DFRobot_GP8302) (w : TwoWire) (status : ℕ) : Bool × TwoWire :=
  let w := w.begin
  let w := w.beginTransmission s._twiaddr
  let w := w.endTransmission
  if status = 0 then (true, w) else (false, w)

/-- `calibration4_20mA` (lines 43-48). -/
def calibration4_20mA (s : DFRobot_GP8302) (dac_4 dac_20 : ℕ) : DFRobot_GP8302 :=
  if dac_4 ≥ dac_20 ∨ dac_20 > GP8302_CURRENT_RESOLUTION then s
  else { s with _dac_4 := dac_4, _dac_20 := dac_20, _calibration := true }

/-- `output_mA` (lines 50-61): returns the value handed back to the caller together
with the device and the bus afterwards. -/
def output_mA (s : DFRobot_GP8302) (w : TwoWire) (dac : ℕ) : ℚ × DFRobot_GP8302 × TwoWire :=
  if dac > GP8302_CURRENT_RESOLUTION then (-1, s, w)
  else
    let s := { s with _digital := dac &&& GP8302_CURRENT_RESOLUTION }
    let w := w.beginTransmission s._twiaddr
    let w := w.write GP8302_CONFIG_CURRENT_REG
    let w := w.write ((s._digital <<< 4) &&& 0xF0)
    let w := w.write ((s._digital >>> 4) &&& 0xFF)
    let w := w.endTransmission
    ((s._digital : ℚ) / (GP8302_CURRENT_RESOLUTION : ℚ) * (GP8302_MAX_CURRENT : ℚ), s, w)

/-- The rounding adjustment of lines 70 and 74,
`if ((unrounded - _digital) * 10 >= 5) _digital += 1;`, where `unrounded` is a `double`:
the subtraction and the multiplication are binary64 operations. -/
def roundingAdjustment (unrounded : ℚ) (digital : ℕ) : ℕ :=
  if fl64 (fl64 (unrounded - (digital : ℚ)) * 10) ≥ 5 then (digital + 1) % 65536 else digital

/-- The binary32 product `current_mA * GP8302_CURRENT_RESOLUTION` of lines 72 and 74. -/
def directProduct (current_mA : ℚ) : ℚ :=
  fl32 (current_mA * (GP8302_CURRENT_RESOLUTION : ℚ))

/-- The binary32 product `(current_mA - 4) * (_dac_20 - _dac_4)` of lines 68 and 70; the
difference of the two codes is taken in `int`. -/
def calibratedProduct (s : DFRobot_GP8302) (current_mA : ℚ) : ℚ :=
  fl32 (fl32 (current_mA - 4) * (((s._dac_20 : ℤ) - (s._dac_4 : ℤ) : ℤ) : ℚ))

/-- The value `_digital` holds when `output` reaches its final `output_mA` call
(lines 64-75); `none` when the `static_cast<uint16_t>` has no defined result.
In lines 68 and 72 the quotient is a `float` division; in lines 70 and 74 the divisor is a
`double`, so the quotient, the sum with `_dac_4` and the test are binary64 operations. -/
def outputDigital (s : DFRobot_GP8302) (current_mA : ℚ) : Option ℕ :=
  let current_mA := if current_mA < 0 then 0 else current_mA
  let current_mA := if current_mA > (GP8302_MAX_CURRENT : ℚ) then (GP8302_MAX_CURRENT : ℚ)
    else current_mA
  if s._calibration = true ∧ current_mA ≥ 4 ∧ current_mA ≤ 20 then
    (toUInt16 (fl32 (calibratedProduct s current_mA / (20 - 4)))).map
      fun (t : ℕ) =>
        roundingAdjustment
          (fl64 ((s._dac_4 : ℚ) + fl64 (calibratedProduct s current_mA / (20 - 4))))
          ((s._dac_4 + t) % 65536)
  else
    (toUInt16 (fl32 (directProduct current_mA / (GP8302_MAX_CURRENT : ℚ)))).map
      fun (t : ℕ) =>
        roundingAdjustment (fl64 (directProduct current_mA / ((GP8302_MAX_CURRENT : ℚ) * 1))) t

/-- `output` (lines 63-79): `_digital` is assigned, then handed to `output_mA`, whose
`float` result is converted to the declared `uint16_t` return type. -/
def output (s : DFRobot_GP8302) (w : TwoWire) (current_mA : ℚ) :
    Option (ℕ × DFRobot_GP8302 × TwoWire) :=
  (outputDigital s current_mA).bind fun digital =>
    let r := output_mA { s with _digital := digital } w digital
    (toUInt16 r.1).map fun v => (v, r.2.1, r.2.2)

/-- `store` (lines 81-108). -/
def store (s : DFRobot_GP8302) (w : TwoWire) : TwoWire :=
  let w := w.beginTransmission s._twiaddr
  let w := w.write GP8302_STORE_TIMING_HEAD
  let w := w.endTransmission
  let w := delay w GP8302_STORE_TIMING_DELAY
  let w := w.beginTransmission s._twiaddr
  let w := w.write GP8302_STORE_TIMING_ADDR
  let w := w.write GP8302_STORE_TIMING_CMD1
  let w := w.endTransmission
  let w := delay w GP8302_STORE_TIMING_DELAY
  let w := w.beginTransmission s._twiaddr
  let w := (List.range 8).foldl (fun w _ => w.write GP8302_STORE_TIMING_CMD2) w
  let w := w.endTransmission
  delay w GP8302_STORE_TIMING_DELAY

end DFRobot_GP8302

open DFRobot_GP8302

/-! ## Reference rounding -/

/-- Round to the nearest integer, ties rounding up: `floor (x + 1/2)`. -/
def roundHalfUp (x : ℚ) : ℤ := ⌊x + 1 / 2⌋

/-! ## The conversion policy of the spec and sequences of calls -/

/-- One call of a public member function, with its arguments; for `begin` the status the
transport reports for the probe. -/
inductive Call where
  | begin (status : ℕ) : Call
  | calibration4_20mA (dac_4 dac_20 : ℕ) : Call
  | output_mA (dac : ℕ) : Call
  | output (current_mA : ℚ) : Call
  | store : Call

/-- The effect of one call on the device and the bus; `none` when `output` has no
defined result. -/
def step (st : DFRobot_GP8302 × TwoWire) : Call → Option (DFRobot_GP8302 × TwoWire)
  | Call.begin status => some (st.1, (DFRobot_GP8302.begin st.1 st.2 status).2)
  | Call.calibration4_20mA dac_4 dac_20 =>
      some (DFRobot_GP8302.calibration4_20mA st.1 dac_4 dac_20, st.2)
  | Call.output_mA dac =>
      some ((DFRobot_GP8302.output_mA st.1 st.2 dac).2.1,
        (DFRobot_GP8302.output_mA st.1 st.2 dac).2.2)
  | Call.output current_mA =>
      (DFRobot_GP8302.output st.1 st.2 current_mA).map fun r => (r.2.1, r.2.2)
  | Call.store => some (st.1, DFRobot_GP8302.store st.1 st.2)

/-- A sequence of calls, executed in order. -/
def run : List Call → DFRobot_GP8302 × TwoWire → Option (DFRobot_GP8302 × TwoWire)
  | [], st => some st
  | c :: cs, st => (step st c).bind (run cs)

/-! ## Rounding to binary32 and binary64 -/

theorem roundHalfEven_cases (y : ℚ) :
    (roundHalfEven y = ⌊y⌋ ∧ y - ⌊y⌋ ≤ 1 / 2) ∨ (roundHalfEven y = ⌊y⌋ + 1 ∧ 1 / 2 ≤ y - ⌊y⌋) := by
  unfold roundHalfEven
  split_ifs with h1 h2 h3
  · exact Or.inl ⟨rfl, h1.le⟩
  · exact Or.inr ⟨rfl, h2.le⟩
  · exact Or.inl ⟨rfl, not_lt.mp h2⟩
  · exact Or.inr ⟨rfl, not_lt.mp h1⟩

theorem roundHalfEven_sub_le (y : ℚ) : (roundHalfEven y : ℚ) - y ≤ 1 / 2 := by
  have hlt : y < ((⌊y⌋ : ℤ) : ℚ) + 1 := Int.lt_floor_add_one y
  have hle : ((⌊y⌋ : ℤ) : ℚ) ≤ y := Int.floor_le y
  rcases roundHalfEven_cases y with ⟨h, _⟩ | ⟨h, h2⟩
  · rw [h]; linarith
  · rw [h]; push_cast; linarith

theorem sub_roundHalfEven_le (y : ℚ) : y - (roundHalfEven y : ℚ) ≤ 1 / 2 := by
  have hlt : y < ((⌊y⌋ : ℤ) : ℚ) + 1 := Int.lt_floor_add_one y
  have hle : ((⌊y⌋ : ℤ) : ℚ) ≤ y := Int.floor_le y
  rcases roundHalfEven_cases y with ⟨h, h2⟩ | ⟨h, _⟩
  · rw [h]; linarith
  · rw [h]; push_cast; linarith

theorem roundHalfEven_eq_of_close {y : ℚ} {n : ℤ} (h1 : y - n < 1 / 2) (h2 : (n : ℚ) - y < 1 / 2) :
    roundHalfEven y = n := by
  have ha := roundHalfEven_sub_le y
  have hb := sub_roundHalfEven_le y
  have h3 : ((roundHalfEven y - n : ℤ) : ℚ) < 1 := by push_cast; linarith
  have h4 : ((-1 : ℤ) : ℚ) < ((roundHalfEven y - n : ℤ) : ℚ) := by push_cast; linarith
  have h5 : roundHalfEven y - n < 1 := by exact_mod_cast h3
  have h6 : -1 < roundHalfEven y - n := by exact_mod_cast h4
  omega

theorem roundHalfEven_intCast (n : ℤ) : roundHalfEven (n : ℚ) = n :=
  roundHalfEven_eq_of_close (by norm_num) (by norm_num)

theorem roundHalfEven_mono {x y : ℚ} (h : x ≤ y) : roundHalfEven x ≤ roundHalfEven y := by
  by_contra hlt
  push_neg at hlt
  have h1 : roundHalfEven y + 1 ≤ roundHalfEven x := hlt
  have h2 : ((roundHalfEven y : ℤ) : ℚ) + 1 ≤ (roundHalfEven x : ℚ) := by exact_mod_cast h1
  have ha := roundHalfEven_sub_le x
  have hb := sub_roundHalfEven_le y
  have hxy : x = y := by linarith
  rw [hxy] at hlt
  exact lt_irrefl _ hlt

theorem two_zpow_pos (z : ℤ) : (0 : ℚ) < 2 ^ z := zpow_pos (by norm_num) z

theorem lt_two_zpow_exponent (emin : ℤ) (x : ℚ) : x < 2 ^ (exponent emin x + 1) := by
  have h := Int.lt_zpow_succ_log_self (b := 2) (by norm_num) x
  have h2 : ((2 : ℕ) : ℚ) ^ (Int.log 2 x + 1) ≤ 2 ^ (exponent emin x + 1) := by
    rw [Nat.cast_ofNat]
    exact zpow_le_zpow_right₀ (by norm_num) (by unfold exponent; omega)
  exact lt_of_lt_of_le h h2

theorem emin_le_exponent (emin : ℤ) (x : ℚ) : emin ≤ exponent emin x := le_max_right _ _

theorem two_zpow_exponent_le {emin : ℤ} {x : ℚ} (hx : 0 < x) (h : emin < exponent emin x) :
    2 ^ exponent emin x ≤ x := by
  have he : exponent emin x = Int.log 2 x := by unfold exponent at h ⊢; omega
  have h1 := Int.zpow_log_le_self (b := 2) (by norm_num) hx
  rw [Nat.cast_ofNat] at h1
  rw [he]
  exact h1

theorem exponent_le {emin k : ℤ} {x : ℚ} (hx : 0 < x) (hk : emin ≤ k) (h : x < 2 ^ (k + 1)) :
    exponent emin x ≤ k := by
  have h1 : Int.log 2 x < k + 1 := by
    rw [← Int.lt_zpow_iff_log_lt (by norm_num) hx, Nat.cast_ofNat]
    exact h
  unfold exponent
  omega

theorem le_exponent {emin k : ℤ} {x : ℚ} (hx : 0 < x) (h : 2 ^ k ≤ x) :
    k ≤ exponent emin x := by
  have h1 : k ≤ Int.log 2 x := by
    rw [← Int.zpow_le_iff_le_log (by norm_num) hx, Nat.cast_ofNat]
    exact h
  unfold exponent
  omega

theorem exponent_mono (emin : ℤ) {x y : ℚ} (hx : 0 < x) (h : x ≤ y) :
    exponent emin x ≤ exponent emin y := by
  have := Int.log_mono_right (b := 2) hx h
  unfold exponent
  omega

theorem roundMag_of_pos (p : ℕ) (emin : ℤ) {x : ℚ} (hx : 0 < x) :
    roundMag p emin x
      = (roundHalfEven (x / 2 ^ (exponent emin x - p)) : ℚ) * 2 ^ (exponent emin x - p) := by
  simp [roundMag, hx.ne']

theorem roundMag_zero (p : ℕ) (emin : ℤ) : roundMag p emin 0 = 0 := by
  simp [roundMag]

theorem roundMag_nonneg (p : ℕ) (emin : ℤ) {x : ℚ} (hx : 0 ≤ x) : 0 ≤ roundMag p emin x := by
  rcases hx.eq_or_lt with h | h
  · rw [← h, roundMag_zero]
  · rw [roundMag_of_pos p emin h]
    have hu := two_zpow_pos (exponent emin x - p)
    have h0 : (0 : ℤ) ≤ roundHalfEven (x / 2 ^ (exponent emin x - p)) := by
      have := roundHalfEven_mono (show (0 : ℚ) ≤ x / 2 ^ (exponent emin x - p) by positivity)
      have h00 : roundHalfEven (0 : ℚ) = 0 := by exact_mod_cast roundHalfEven_intCast 0
      omega
    have : (0 : ℚ) ≤ (roundHalfEven (x / 2 ^ (exponent emin x - p)) : ℚ) := by exact_mod_cast h0
    positivity

/-- Absolute error of rounding a magnitude below `2 ^ (k + 1)`. -/
theorem roundMag_err (p : ℕ) {emin k : ℤ} (hk : emin ≤ k) {x : ℚ} (hx : 0 ≤ x)
    (h : x < 2 ^ (k + 1)) :
    roundMag p emin x - x ≤ 2 ^ (k - p) / 2 ∧ x - roundMag p emin x ≤ 2 ^ (k - p) / 2 := by
  have hk0 := two_zpow_pos (k - p)
  rcases hx.eq_or_lt with h0 | h0
  · rw [← h0, roundMag_zero]
    constructor <;> linarith
  · rw [roundMag_of_pos p emin h0]
    have hu := two_zpow_pos (exponent emin x - p)
    have hle : (2 : ℚ) ^ (exponent emin x - p) ≤ 2 ^ (k - p) :=
      zpow_le_zpow_right₀ (by norm_num) (by have := exponent_le h0 hk h; omega)
    have ha := roundHalfEven_sub_le (x / 2 ^ (exponent emin x - p))
    have hb := sub_roundHalfEven_le (x / 2 ^ (exponent emin x - p))
    have hx' : x = x / 2 ^ (exponent emin x - p) * 2 ^ (exponent emin x - p) := by
      field_simp
    constructor
    · calc (roundHalfEven (x / 2 ^ (exponent emin x - p)) : ℚ) * 2 ^ (exponent emin x - p) - x
          = ((roundHalfEven (x / 2 ^ (exponent emin x - p)) : ℚ)
              - x / 2 ^ (exponent emin x - p)) * 2 ^ (exponent emin x - p) := by
            rw [sub_mul, ← hx']
        _ ≤ 1 / 2 * 2 ^ (exponent emin x - p) := mul_le_mul_of_nonneg_right ha hu.le
        _ ≤ 2 ^ (k - p) / 2 := by linarith
    · calc x - (roundHalfEven (x / 2 ^ (exponent emin x - p)) : ℚ) * 2 ^ (exponent emin x - p)
          = (x / 2 ^ (exponent emin x - p)
              - (roundHalfEven (x / 2 ^ (exponent emin x - p)) : ℚ))
              * 2 ^ (exponent emin x - p) := by
            rw [sub_mul, ← hx']
        _ ≤ 1 / 2 * 2 ^ (exponent emin x - p) := mul_le_mul_of_nonneg_right hb hu.le
        _ ≤ 2 ^ (k - p) / 2 := by linarith

theorem two_pow_mul_zpow (n : ℕ) (z : ℤ) : (((2 : ℤ) ^ n : ℤ) : ℚ) * 2 ^ z = 2 ^ ((n : ℤ) + z) := by
  push_cast
  rw [zpow_add₀ (by norm_num : (2 : ℚ) ≠ 0), zpow_natCast]

theorem div_two_zpow (a b : ℤ) : (2 : ℚ) ^ a / 2 ^ b = 2 ^ (a - b) := by
  rw [zpow_sub₀ (by norm_num : (2 : ℚ) ≠ 0)]

/-- A rounded positive magnitude does not exceed the next power of two. -/
theorem roundMag_le_two_zpow (p : ℕ) (emin : ℤ) {x : ℚ} (hx : 0 < x) :
    roundMag p emin x ≤ 2 ^ (exponent emin x + 1) := by
  rw [roundMag_of_pos p emin hx]
  have hu := two_zpow_pos (exponent emin x - p)
  have hlt := lt_two_zpow_exponent emin x
  have h1 : x / 2 ^ (exponent emin x - p) ≤ (((2 : ℤ) ^ (p + 1) : ℤ) : ℚ) := by
    rw [div_le_iff₀ hu, two_pow_mul_zpow]
    have : ((p + 1 : ℕ) : ℤ) + (exponent emin x - p) = exponent emin x + 1 := by push_cast; ring
    rw [this]
    exact hlt.le
  have h2 := roundHalfEven_mono h1
  rw [roundHalfEven_intCast] at h2
  have h3 : (roundHalfEven (x / 2 ^ (exponent emin x - p)) : ℚ) ≤ (((2 : ℤ) ^ (p + 1) : ℤ) : ℚ) := by
    exact_mod_cast h2
  calc (roundHalfEven (x / 2 ^ (exponent emin x - p)) : ℚ) * 2 ^ (exponent emin x - p)
      ≤ (((2 : ℤ) ^ (p + 1) : ℤ) : ℚ) * 2 ^ (exponent emin x - p) :=
        mul_le_mul_of_nonneg_right h3 hu.le
    _ = 2 ^ (exponent emin x + 1) := by
        rw [two_pow_mul_zpow]
        congr 1
        push_cast; ring

/-- A rounded normal magnitude is at least the power of two below it. -/
theorem two_zpow_le_roundMag (p : ℕ) {emin : ℤ} {x : ℚ} (hx : 0 < x)
    (h : emin < exponent emin x) : 2 ^ exponent emin x ≤ roundMag p emin x := by
  rw [roundMag_of_pos p emin hx]
  have hu := two_zpow_pos (exponent emin x - p)
  have hle := two_zpow_exponent_le hx h
  have h1 : (((2 : ℤ) ^ p : ℤ) : ℚ) ≤ x / 2 ^ (exponent emin x - p) := by
    rw [le_div_iff₀ hu, two_pow_mul_zpow]
    have : (p : ℤ) + (exponent emin x - p) = exponent emin x := by ring
    rw [this]
    exact hle
  have h2 := roundHalfEven_mono h1
  rw [roundHalfEven_intCast] at h2
  have h3 : (((2 : ℤ) ^ p : ℤ) : ℚ) ≤ (roundHalfEven (x / 2 ^ (exponent emin x - p)) : ℚ) := by
    exact_mod_cast h2
  calc (2 : ℚ) ^ exponent emin x = (((2 : ℤ) ^ p : ℤ) : ℚ) * 2 ^ (exponent emin x - p) := by
        rw [two_pow_mul_zpow]
        congr 1
        ring
    _ ≤ (roundHalfEven (x / 2 ^ (exponent emin x - p)) : ℚ) * 2 ^ (exponent emin x - p) :=
        mul_le_mul_of_nonneg_right h3 hu.le

theorem roundMag_mono (p : ℕ) (emin : ℤ) {x y : ℚ} (hx : 0 ≤ x) (h : x ≤ y) :
    roundMag p emin x ≤ roundMag p emin y := by
  rcases hx.eq_or_lt with h0 | h0
  · rw [← h0, roundMag_zero]
    exact roundMag_nonneg p emin (le_trans hx h)
  · have hy : 0 < y := lt_of_lt_of_le h0 h
    rcases (exponent_mono emin h0 h).eq_or_lt with he | he
    · rw [roundMag_of_pos p emin h0, roundMag_of_pos p emin hy, he]
      have hu := two_zpow_pos (exponent emin y - p)
      have h1 : x / 2 ^ (exponent emin y - p) ≤ y / 2 ^ (exponent emin y - p) :=
        div_le_div_of_nonneg_right h hu.le
      have h2 : (roundHalfEven (x / 2 ^ (exponent emin y - p)) : ℚ)
          ≤ (roundHalfEven (y / 2 ^ (exponent emin y - p)) : ℚ) := by
        exact_mod_cast roundHalfEven_mono h1
      exact mul_le_mul_of_nonneg_right h2 hu.le
    · have h1 := roundMag_le_two_zpow p emin h0
      have h2 := two_zpow_le_roundMag p hy
        (lt_of_le_of_lt (emin_le_exponent emin x) he)
      have h3 : (2 : ℚ) ^ (exponent emin x + 1) ≤ 2 ^ exponent emin y :=
        zpow_le_zpow_right₀ (by norm_num) (by omega)
      linarith

/-- A magnitude `n * 2 ^ z` with `n < 2 ^ (p + 1)` and `z` not below the smallest
exponent of the format is representable: rounding leaves it unchanged. -/
theorem roundMag_of_repr (p : ℕ) {emin : ℤ} (n : ℕ) (z : ℤ) (hn : n < 2 ^ (p + 1))
    (hz : emin - p ≤ z) : roundMag p emin ((n : ℚ) * 2 ^ z) = (n : ℚ) * 2 ^ z := by
  rcases Nat.eq_zero_or_pos n with h0 | h0
  · subst h0
    simp [roundMag]
  · have hz0 := two_zpow_pos z
    have hx : (0 : ℚ) < (n : ℚ) * 2 ^ z := by positivity
    rw [roundMag_of_pos p emin hx]
    set E := exponent emin ((n : ℚ) * 2 ^ z) with hE
    have hlt : (n : ℚ) * 2 ^ z < 2 ^ ((z + p) + 1) := by
      have h1 : (n : ℚ) < (((2 : ℤ) ^ (p + 1) : ℤ) : ℚ) := by exact_mod_cast hn
      calc (n : ℚ) * 2 ^ z < (((2 : ℤ) ^ (p + 1) : ℤ) : ℚ) * 2 ^ z :=
            mul_lt_mul_of_pos_right h1 hz0
        _ = 2 ^ ((z + p) + 1) := by
            rw [two_pow_mul_zpow]; congr 1; push_cast; ring
    have hEle : E ≤ z + p := exponent_le hx (by omega) hlt
    obtain ⟨j, hj⟩ : ∃ j : ℕ, (j : ℤ) = z - (E - p) := ⟨(z - (E - p)).toNat, by omega⟩
    have hdiv : (n : ℚ) * 2 ^ z / 2 ^ (E - p) = (((n : ℤ) * (2 : ℤ) ^ j : ℤ) : ℚ) := by
      rw [mul_div_assoc, div_two_zpow, ← hj]
      push_cast
      rw [zpow_natCast]
    rw [hdiv, roundHalfEven_intCast]
    push_cast
    rw [mul_assoc, ← zpow_natCast, ← zpow_add₀ (by norm_num : (2 : ℚ) ≠ 0), hj]
    congr 2
    ring

theorem roundMag_eq_of_close (p : ℕ) (emin : ℤ) {x : ℚ} (e : ℤ) (n : ℤ) (he : emin ≤ e)
    (h1 : 2 ^ e ≤ x) (h2 : x < 2 ^ (e + 1))
    (h3 : x / 2 ^ (e - p) - n < 1 / 2) (h4 : (n : ℚ) - x / 2 ^ (e - p) < 1 / 2) :
    roundMag p emin x = (n : ℚ) * 2 ^ (e - p) := by
  have hx : 0 < x := lt_of_lt_of_le (two_zpow_pos e) h1
  have hE : exponent emin x = e :=
    le_antisymm (exponent_le hx he h2) (le_exponent hx h1)
  rw [roundMag_of_pos p emin hx, hE, roundHalfEven_eq_of_close h3 h4]

theorem roundNearestEven_of_nonneg (p : ℕ) (emin : ℤ) {x : ℚ} (hx : 0 ≤ x) :
    roundNearestEven p emin x = roundMag p emin x := by
  simp [roundNearestEven, hx]

theorem roundNearestEven_of_neg (p : ℕ) (emin : ℤ) {x : ℚ} (hx : x < 0) :
    roundNearestEven p emin x = - roundMag p emin (-x) := by
  simp [roundNearestEven, not_le.mpr hx]

theorem roundNearestEven_nonneg (p : ℕ) (emin : ℤ) {x : ℚ} (hx : 0 ≤ x) :
    0 ≤ roundNearestEven p emin x := by
  rw [roundNearestEven_of_nonneg p emin hx]
  exact roundMag_nonneg p emin hx

theorem roundNearestEven_nonpos (p : ℕ) (emin : ℤ) {x : ℚ} (hx : x ≤ 0) :
    roundNearestEven p emin x ≤ 0 := by
  rcases hx.eq_or_lt with h | h
  · rw [h, roundNearestEven_of_nonneg p emin le_rfl, roundMag_zero]
  · rw [roundNearestEven_of_neg p emin h]
    have := roundMag_nonneg p emin (show (0 : ℚ) ≤ -x by linarith)
    linarith

theorem roundNearestEven_mono (p : ℕ) (emin : ℤ) {x y : ℚ} (h : x ≤ y) :
    roundNearestEven p emin x ≤ roundNearestEven p emin y := by
  rcases lt_or_le x 0 with hx | hx
  · rcases lt_or_le y 0 with hy | hy
    · rw [roundNearestEven_of_neg p emin hx, roundNearestEven_of_neg p emin hy]
      have := roundMag_mono p emin (show (0 : ℚ) ≤ -y by linarith) (show -y ≤ -x by linarith)
      linarith
    · exact le_trans (roundNearestEven_nonpos p emin hx.le) (roundNearestEven_nonneg p emin hy)
  · rw [roundNearestEven_of_nonneg p emin hx, roundNearestEven_of_nonneg p emin (le_trans hx h)]
    exact roundMag_mono p emin hx h

theorem roundNearestEven_err (p : ℕ) (emin : ℤ) {k : ℤ} (hk : emin ≤ k) {x : ℚ}
    (h1 : -(2 ^ (k + 1)) < x) (h2 : x < 2 ^ (k + 1)) :
    roundNearestEven p emin x - x ≤ 2 ^ (k - p) / 2 ∧
      x - roundNearestEven p emin x ≤ 2 ^ (k - p) / 2 := by
  rcases lt_or_le x 0 with hx | hx
  · rw [roundNearestEven_of_neg p emin hx]
    obtain ⟨ha, hb⟩ := roundMag_err p hk (show (0 : ℚ) ≤ -x by linarith)
      (show -x < 2 ^ (k + 1) by linarith)
    constructor <;> linarith
  · rw [roundNearestEven_of_nonneg p emin hx]
    exact roundMag_err p hk hx h2

theorem roundNearestEven_of_repr (p : ℕ) (emin : ℤ) (n : ℕ) (z : ℤ) (hn : n < 2 ^ (p + 1))
    (hz : emin - p ≤ z) : roundNearestEven p emin ((n : ℚ) * 2 ^ z) = (n : ℚ) * 2 ^ z := by
  have hx : (0 : ℚ) ≤ (n : ℚ) * 2 ^ z := by
    have := two_zpow_pos z
    positivity
  rw [roundNearestEven_of_nonneg p emin hx, roundMag_of_repr p n z hn hz]

/-! ## binary32 and binary64 -/

theorem fl32_mono {x y : ℚ} (h : x ≤ y) : fl32 x ≤ fl32 y := roundNearestEven_mono 23 _ h
theorem fl64_mono {x y : ℚ} (h : x ≤ y) : fl64 x ≤ fl64 y := roundNearestEven_mono 52 _ h

theorem fl32_nonneg {x : ℚ} (h : 0 ≤ x) : 0 ≤ fl32 x := roundNearestEven_nonneg 23 _ h
theorem fl64_nonneg {x : ℚ} (h : 0 ≤ x) : 0 ≤ fl64 x := roundNearestEven_nonneg 52 _ h
theorem fl64_nonpos {x : ℚ} (h : x ≤ 0) : fl64 x ≤ 0 := roundNearestEven_nonpos 52 _ h

/-- Naturals below `2 ^ 24` are binary32 values. -/
theorem fl32_natCast (n : ℕ) (hn : n < 2 ^ 24) : fl32 (n : ℚ) = n := by
  have := roundNearestEven_of_repr 23 (-126) n 0 hn (by norm_num)
  simpa [fl32] using this

/-- Naturals below `2 ^ 53` are binary64 values. -/
theorem fl64_natCast (n : ℕ) (hn : n < 2 ^ 53) : fl64 (n : ℚ) = n := by
  have := roundNearestEven_of_repr 52 (-1022) n 0 hn (by norm_num)
  simpa [fl64] using this

/-- Halves of naturals below `2 ^ 24` are binary32 values. -/
theorem fl32_half (n : ℕ) (hn : n < 2 ^ 24) : fl32 ((n : ℚ) / 2) = (n : ℚ) / 2 := by
  have := roundNearestEven_of_repr 23 (-126) n (-1) hn (by norm_num)
  have h2 : (2 : ℚ) ^ (-1 : ℤ) = 1 / 2 := by norm_num
  rw [h2] at this
  have e : (n : ℚ) / 2 = (n : ℚ) * (1 / 2) := by ring
  rw [e]
  exact this

/-- Halves of naturals below `2 ^ 53` are binary64 values. -/
theorem fl64_half (n : ℕ) (hn : n < 2 ^ 53) : fl64 ((n : ℚ) / 2) = (n : ℚ) / 2 := by
  have := roundNearestEven_of_repr 52 (-1022) n (-1) hn (by norm_num)
  have h2 : (2 : ℚ) ^ (-1 : ℤ) = 1 / 2 := by norm_num
  rw [h2] at this
  have e : (n : ℚ) / 2 = (n : ℚ) * (1 / 2) := by ring
  rw [e]
  exact this

/-- Error of binary32 rounding below `2 ^ (k + 1)` in magnitude, with the bound given as
a number. -/
theorem fl32_err (k : ℤ) (hk : -126 ≤ k) {B x : ℚ} (hB : (2 : ℚ) ^ (k + 1) = B)
    (h1 : -B < x) (h2 : x < B) :
    fl32 x - x ≤ B / 2 ^ 25 ∧ x - fl32 x ≤ B / 2 ^ 25 := by
  have h := roundNearestEven_err 23 (-126) hk (x := x) (by rw [hB]; exact h1)
    (by rw [hB]; exact h2)
  have e : (2 : ℚ) ^ (k - (23 : ℕ)) / 2 = B / 2 ^ 25 := by
    rw [← hB, show k - ((23 : ℕ) : ℤ) = (k + 1) - 24 by push_cast; ring,
      zpow_sub₀ (by norm_num : (2 : ℚ) ≠ 0)]
    norm_num
    ring
  rw [e] at h
  exact h

/-- Error of binary64 rounding below `2 ^ (k + 1)` in magnitude. -/
theorem fl64_err (k : ℤ) (hk : -1022 ≤ k) {B x : ℚ} (hB : (2 : ℚ) ^ (k + 1) = B)
    (h1 : -B < x) (h2 : x < B) :
    fl64 x - x ≤ B / 2 ^ 54 ∧ x - fl64 x ≤ B / 2 ^ 54 := by
  have h := roundNearestEven_err 52 (-1022) hk (x := x) (by rw [hB]; exact h1)
    (by rw [hB]; exact h2)
  have e : (2 : ℚ) ^ (k - (52 : ℕ)) / 2 = B / 2 ^ 54 := by
    rw [← hB, show k - ((52 : ℕ) : ℤ) = (k + 1) - 53 by push_cast; ring,
      zpow_sub₀ (by norm_num : (2 : ℚ) ≠ 0)]
    norm_num
    ring
  rw [e] at h
  exact h

/-! ## Auxiliary facts -/

theorem toUInt16_of_nonneg {x : ℚ} (h0 : 0 ≤ x) (h1 : x < 65536) :
    toUInt16 x = some ⌊x⌋.toNat := by
  have hneg : (-1 : ℚ) < x := by linarith
  simp [toUInt16, truncate, h0, h1, hneg]

theorem land_resolution {c : ℕ} (h : c ≤ 4095) : c &&& 4095 = c := by
  have h2 : c &&& (2 ^ 12 - 1) = c % 2 ^ 12 := Nat.and_pow_two_sub_one_eq_mod c 12
  have h3 : c % 2 ^ 12 = c := Nat.mod_eq_of_lt (by norm_num; omega)
  rw [h3] at h2
  exact h2

theorem floor_toNat_cast {y : ℚ} (h0 : 0 ≤ y) : ((⌊y⌋.toNat : ℕ) : ℚ) = ((⌊y⌋ : ℤ) : ℚ) := by
  have hn : (0 : ℤ) ≤ ⌊y⌋ := Int.floor_nonneg.mpr h0
  have : ((⌊y⌋.toNat : ℕ) : ℤ) = ⌊y⌋ := Int.toNat_of_nonneg hn
  exact_mod_cast this


/-! ## The rounding adjustment -/

theorem fl64_half_one : fl64 (1 / 2) = 1 / 2 := by
  have := fl64_half 1 (by norm_num)
  simpa using this

theorem fl64_five : fl64 5 = 5 := by
  have := fl64_natCast 5 (by norm_num)
  simpa using this

/-- An unrounded value not above `digital` leaves it unchanged. -/
theorem roundingAdjustment_of_le {x : ℚ} {d : ℕ} (h : x ≤ d) : roundingAdjustment x d = d := by
  have h1 : fl64 (x - (d : ℚ)) ≤ 0 := fl64_nonpos (by linarith)
  have h2 : fl64 (fl64 (x - (d : ℚ)) * 10) ≤ 0 := fl64_nonpos (by linarith)
  have h3 : ¬ fl64 (fl64 (x - (d : ℚ)) * 10) ≥ 5 := by
    intro h5
    linarith
  simp [roundingAdjustment, h3]

/-- An unrounded value at least one half above `digital` triggers the adjustment. -/
theorem roundingAdjustment_of_half_le {x : ℚ} {d : ℕ} (h : (d : ℚ) + 1 / 2 ≤ x) :
    roundingAdjustment x d = (d + 1) % 65536 := by
  have h1 : (1 : ℚ) / 2 ≤ fl64 (x - (d : ℚ)) := by
    rw [← fl64_half_one]
    exact fl64_mono (by linarith)
  have h2 : (5 : ℚ) ≤ fl64 (fl64 (x - (d : ℚ)) * 10) := by
    rw [← fl64_five]
    exact fl64_mono (by linarith)
  simp [roundingAdjustment, h2]

/-- Either the adjustment is not made, and then the unrounded value is less than one half
above `digital`, or it is made and the test of the source held. -/
theorem roundingAdjustment_cases (x : ℚ) (d : ℕ) :
    (roundingAdjustment x d = d ∧ x < (d : ℚ) + 1 / 2) ∨
    (roundingAdjustment x d = (d + 1) % 65536 ∧ fl64 (fl64 (x - (d : ℚ)) * 10) ≥ 5) := by
  by_cases h : fl64 (fl64 (x - (d : ℚ)) * 10) ≥ 5
  · right
    exact ⟨by simp [roundingAdjustment, h], h⟩
  · left
    refine ⟨by simp [roundingAdjustment, h], ?_⟩
    by_contra hx
    push_neg at hx
    have := roundingAdjustment_of_half_le hx
    have h1 : (1 : ℚ) / 2 ≤ fl64 (x - (d : ℚ)) := by
      rw [← fl64_half_one]
      exact fl64_mono (by linarith)
    have h2 : (5 : ℚ) ≤ fl64 (fl64 (x - (d : ℚ)) * 10) := by
      rw [← fl64_five]
      exact fl64_mono (by linarith)
    exact h h2

theorem roundingAdjustment_le {x : ℚ} {d n : ℕ} (hd : d ≤ n) (hx : x ≤ n) (hn : n < 65536) :
    roundingAdjustment x d ≤ n := by
  rcases Nat.eq_or_lt_of_le hd with h | h
  · subst h
    rw [roundingAdjustment_of_le hx]
  · rcases roundingAdjustment_cases x d with ⟨h1, _⟩ | ⟨h1, _⟩
    · rw [h1]; exact hd
    · rw [h1, Nat.mod_eq_of_lt (by omega)]; omega

theorem le_roundingAdjustment (x : ℚ) {d : ℕ} (hd : d < 65535) : d ≤ roundingAdjustment x d := by
  rcases roundingAdjustment_cases x d with ⟨h1, _⟩ | ⟨h1, _⟩
  · rw [h1]
  · rw [h1, Nat.mod_eq_of_lt (by omega)]; omega

theorem roundingAdjustment_mono {x₁ x₂ : ℚ} {d₁ d₂ : ℕ} (hd : d₁ ≤ d₂) (hx : x₁ ≤ x₂)
    (h2 : d₂ < 65535) : roundingAdjustment x₁ d₁ ≤ roundingAdjustment x₂ d₂ := by
  rcases Nat.eq_or_lt_of_le hd with h | h
  · subst h
    rcases roundingAdjustment_cases x₂ d₁ with ⟨h1, _⟩ | ⟨h1, _⟩
    · rcases roundingAdjustment_cases x₁ d₁ with ⟨h3, _⟩ | ⟨h3, h4⟩
      · rw [h1, h3]
      · exfalso
        have h5 : fl64 (fl64 (x₁ - (d₁ : ℚ)) * 10) ≤ fl64 (fl64 (x₂ - (d₁ : ℚ)) * 10) :=
          fl64_mono (by
            have := fl64_mono (show x₁ - (d₁ : ℚ) ≤ x₂ - (d₁ : ℚ) by linarith)
            linarith)
        have h6 : roundingAdjustment x₂ d₁ = (d₁ + 1) % 65536 := by
          simp [roundingAdjustment, le_trans h4 h5]
        rw [h6, Nat.mod_eq_of_lt (by omega)] at h1
        omega
    · rw [h1, Nat.mod_eq_of_lt (by omega)]
      rcases roundingAdjustment_cases x₁ d₁ with ⟨h3, _⟩ | ⟨h3, _⟩
      · rw [h3]; omega
      · rw [h3, Nat.mod_eq_of_lt (by omega)]
  · have h3 : roundingAdjustment x₁ d₁ ≤ d₁ + 1 := by
      rcases roundingAdjustment_cases x₁ d₁ with ⟨h3, _⟩ | ⟨h3, _⟩
      · rw [h3]; omega
      · rw [h3]; exact Nat.mod_le _ _
    have h4 := le_roundingAdjustment x₂ h2
    omega

/-- When the adjustment is made the unrounded value is at least half above, up to the
rounding error of the two binary64 operations of the test. -/
theorem roundingAdjustment_lower {x : ℚ} {d : ℕ} (hx0 : 0 ≤ x) (hx : x ≤ 8192) (hd : d ≤ 8192)
    (h : fl64 (fl64 (x - (d : ℚ)) * 10) ≥ 5) : (d : ℚ) + 1 / 2 - 1 / 1000000 ≤ x := by
  have hdq : (d : ℚ) ≤ 8192 := by exact_mod_cast hd
  have hd0 : (0 : ℚ) ≤ (d : ℚ) := Nat.cast_nonneg d
  have e1 := fl64_err 13 (by norm_num) (B := 16384) (x := x - (d : ℚ)) (by norm_num)
    (by linarith) (by linarith)
  have hv : fl64 (x - (d : ℚ)) ≤ 8193 := by
    have := e1.1
    norm_num at this
    linarith
  have hv2 : -8193 ≤ fl64 (x - (d : ℚ)) := by
    have := e1.2
    norm_num at this
    linarith
  have e2 := fl64_err 17 (by norm_num) (B := 262144) (x := fl64 (x - (d : ℚ)) * 10)
    (by norm_num) (by linarith) (by linarith)
  have h3 := e1.1
  have h4 := e2.1
  norm_num at h3 h4
  linarith

theorem floor_toNat_le {y : ℚ} (h0 : 0 ≤ y) : ((⌊y⌋.toNat : ℕ) : ℚ) ≤ y := by
  rw [floor_toNat_cast h0]; exact Int.floor_le y

theorem lt_floor_toNat_add_one {y : ℚ} (h0 : 0 ≤ y) : y < ((⌊y⌋.toNat : ℕ) : ℚ) + 1 := by
  rw [floor_toNat_cast h0]; exact Int.lt_floor_add_one y

theorem floor_toNat_le_of_le {y : ℚ} {n : ℕ} (h : y ≤ n) : ⌊y⌋.toNat ≤ n := by
  have h1 : ⌊y⌋ < (n : ℤ) + 1 := by
    rw [Int.floor_lt]; push_cast; linarith
  omega

theorem floor_toNat_mono {x y : ℚ} (h : x ≤ y) : ⌊x⌋.toNat ≤ ⌊y⌋.toNat :=
  Int.toNat_le_toNat (Int.floor_mono h)

/-! ## The direct conversion (lines 72-74) -/

theorem direct_product_le {m : ℚ} (h20 : m ≤ 20) : fl32 (m * 4095) ≤ 81900 := by
  have h := fl32_mono (show m * 4095 ≤ ((81900 : ℕ) : ℚ) by push_cast; linarith)
  rw [fl32_natCast 81900 (by norm_num)] at h
  exact_mod_cast h

theorem direct_quotient_le {m : ℚ} (h20 : m ≤ 20) : fl32 (fl32 (m * 4095) / 20) ≤ 4095 := by
  have h1 := direct_product_le h20
  have h := fl32_mono (show fl32 (m * 4095) / 20 ≤ ((4095 : ℕ) : ℚ) by push_cast; linarith)
  rw [fl32_natCast 4095 (by norm_num)] at h
  exact_mod_cast h

theorem direct_unrounded_le {m : ℚ} (h20 : m ≤ 20) : fl64 (fl32 (m * 4095) / 20) ≤ 4095 := by
  have h1 := direct_product_le h20
  have h := fl64_mono (show fl32 (m * 4095) / 20 ≤ ((4095 : ℕ) : ℚ) by push_cast; linarith)
  rw [fl64_natCast 4095 (by norm_num)] at h
  exact_mod_cast h

/-- The uncalibrated formula of `output` on an already clamped current. -/
theorem outputDigital_direct (s : DFRobot_GP8302) {m : ℚ} (h0 : 0 ≤ m) (h20 : m ≤ 20)
    (hc : ¬ (s._calibration = true ∧ m ≥ 4)) :
    outputDigital s m = some (roundingAdjustment (fl64 (fl32 (m * 4095) / 20))
      ⌊fl32 (fl32 (m * 4095) / 20)⌋.toNat) := by
  have hp0 : 0 ≤ fl32 (m * 4095) := fl32_nonneg (by positivity)
  have hq0 : 0 ≤ fl32 (fl32 (m * 4095) / 20) := fl32_nonneg (by positivity)
  have hq1 := direct_quotient_le h20
  have hcond : ¬ (s._calibration = true ∧ m ≥ 4 ∧ m ≤ 20) := fun h => hc ⟨h.1, h.2.1⟩
  have hlt : ¬ m < 0 := not_lt.mpr h0
  have hgt : ¬ m > 20 := not_lt.mpr h20
  simp only [outputDigital, directProduct, GP8302_MAX_CURRENT, GP8302_CURRENT_RESOLUTION, hlt,
    hgt, hcond, if_false, Nat.cast_ofNat, mul_one]
  rw [toUInt16_of_nonneg hq0 (by linarith)]
  simp only [Option.map_some']

theorem direct_code_le {m : ℚ} (_h0 : 0 ≤ m) (h20 : m ≤ 20) :
    roundingAdjustment (fl64 (fl32 (m * 4095) / 20)) ⌊fl32 (fl32 (m * 4095) / 20)⌋.toNat
      ≤ 4095 :=
  roundingAdjustment_le (floor_toNat_le_of_le (by exact_mod_cast direct_quotient_le h20))
    (by exact_mod_cast direct_unrounded_le h20) (by norm_num)

theorem direct_code_mono {m₁ m₂ : ℚ} (h : m₁ ≤ m₂) (h20 : m₂ ≤ 20) :
    roundingAdjustment (fl64 (fl32 (m₁ * 4095) / 20)) ⌊fl32 (fl32 (m₁ * 4095) / 20)⌋.toNat
      ≤ roundingAdjustment (fl64 (fl32 (m₂ * 4095) / 20))
          ⌊fl32 (fl32 (m₂ * 4095) / 20)⌋.toNat := by
  have hp : fl32 (m₁ * 4095) ≤ fl32 (m₂ * 4095) := fl32_mono (by linarith)
  have hq : fl32 (m₁ * 4095) / 20 ≤ fl32 (m₂ * 4095) / 20 := by linarith
  have ht : ⌊fl32 (fl32 (m₂ * 4095) / 20)⌋.toNat ≤ 4095 :=
    floor_toNat_le_of_le (by exact_mod_cast direct_quotient_le h20)
  exact roundingAdjustment_mono (floor_toNat_mono (fl32_mono hq)) (fl64_mono hq) (by omega)

/-- The code of the direct conversion is within `1/2 + 1/1000` of the exact value. -/
theorem direct_code_close {m : ℚ} (h0 : 0 ≤ m) (h20 : m ≤ 20) :
    ((roundingAdjustment (fl64 (fl32 (m * 4095) / 20))
        ⌊fl32 (fl32 (m * 4095) / 20)⌋.toNat : ℕ) : ℚ) - m * 4095 / 20 ≤ 1 / 2 + 1 / 1000 ∧
    m * 4095 / 20 - ((roundingAdjustment (fl64 (fl32 (m * 4095) / 20))
        ⌊fl32 (fl32 (m * 4095) / 20)⌋.toNat : ℕ) : ℚ) ≤ 1 / 2 + 1 / 1000 := by
  have hp0 : 0 ≤ fl32 (m * 4095) := fl32_nonneg (by positivity)
  have hp1 := direct_product_le h20
  have hq0 : 0 ≤ fl32 (fl32 (m * 4095) / 20) := fl32_nonneg (by positivity)
  have hq1 := direct_quotient_le h20
  have hX0 : 0 ≤ fl64 (fl32 (m * 4095) / 20) := fl64_nonneg (by positivity)
  have hX1 := direct_unrounded_le h20
  have ep := fl32_err 16 (by norm_num) (B := 131072) (x := m * 4095) (by norm_num)
    (by linarith) (by linarith)
  have eq := fl32_err 11 (by norm_num) (B := 4096) (x := fl32 (m * 4095) / 20) (by norm_num)
    (by linarith) (by linarith)
  have eX := fl64_err 11 (by norm_num) (B := 4096) (x := fl32 (m * 4095) / 20) (by norm_num)
    (by linarith) (by linarith)
  obtain ⟨ep1, ep2⟩ := ep
  obtain ⟨eq1, eq2⟩ := eq
  obtain ⟨eX1, eX2⟩ := eX
  norm_num at ep1 ep2 eq1 eq2 eX1 eX2
  have ht1 := floor_toNat_le hq0
  have ht2 := lt_floor_toNat_add_one hq0
  have ht3 : ⌊fl32 (fl32 (m * 4095) / 20)⌋.toNat ≤ 4095 :=
    floor_toNat_le_of_le (by exact_mod_cast hq1)
  rcases roundingAdjustment_cases (fl64 (fl32 (m * 4095) / 20))
      ⌊fl32 (fl32 (m * 4095) / 20)⌋.toNat with ⟨hc, hx⟩ | ⟨hc, hx⟩
  · rw [hc]
    constructor <;> linarith
  · have hlow := roundingAdjustment_lower hX0 (by linarith) (by omega) hx
    rw [hc, Nat.mod_eq_of_lt (by omega)]
    push_cast
    constructor <;> linarith

/-! ## The calibrated conversion (lines 68-70) -/

theorem calibrated_offset_le {m : ℚ} (h20 : m ≤ 20) : fl32 (m - 4) ≤ 16 := by
  have h := fl32_mono (show m - 4 ≤ ((16 : ℕ) : ℚ) by push_cast; linarith)
  rw [fl32_natCast 16 (by norm_num)] at h
  exact_mod_cast h

theorem calibrated_product_le {m : ℚ} {D : ℕ} (hD : D ≤ 4095) (_h4 : 4 ≤ m) (h20 : m ≤ 20) :
    fl32 (fl32 (m - 4) * (D : ℚ)) ≤ 16 * (D : ℚ) := by
  have hz := calibrated_offset_le h20
  have hDq : (0 : ℚ) ≤ (D : ℚ) := Nat.cast_nonneg D
  have h := fl32_mono (show fl32 (m - 4) * (D : ℚ) ≤ ((16 * D : ℕ) : ℚ) by
    push_cast
    exact mul_le_mul_of_nonneg_right hz hDq)
  rw [fl32_natCast (16 * D) (by norm_num; omega)] at h
  exact_mod_cast h

theorem calibrated_product_nonneg {m : ℚ} {D : ℕ} (h4 : 4 ≤ m) :
    0 ≤ fl32 (fl32 (m - 4) * (D : ℚ)) := by
  have hz : 0 ≤ fl32 (m - 4) := fl32_nonneg (by linarith)
  exact fl32_nonneg (by positivity)

theorem calibrated_quotient_le {m : ℚ} {D : ℕ} (hD : D ≤ 4095) (h4 : 4 ≤ m) (h20 : m ≤ 20) :
    fl32 (fl32 (fl32 (m - 4) * (D : ℚ)) / 16) ≤ D := by
  have hP := calibrated_product_le hD h4 h20
  have h := fl32_mono (show fl32 (fl32 (m - 4) * (D : ℚ)) / 16 ≤ (D : ℚ) by linarith)
  rw [fl32_natCast D (by norm_num; omega)] at h
  exact h

theorem calibrated_unrounded_le {m : ℚ} {a D : ℕ} (hD : a + D ≤ 4095) (h4 : 4 ≤ m)
    (h20 : m ≤ 20) :
    fl64 ((a : ℚ) + fl64 (fl32 (fl32 (m - 4) * (D : ℚ)) / 16)) ≤ ((a + D : ℕ) : ℚ) := by
  have hP := calibrated_product_le (show D ≤ 4095 by omega) h4 h20
  have h1 := fl64_mono (show fl32 (fl32 (m - 4) * (D : ℚ)) / 16 ≤ (D : ℚ) by linarith)
  rw [fl64_natCast D (by norm_num; omega)] at h1
  have h := fl64_mono (show (a : ℚ) + fl64 (fl32 (fl32 (m - 4) * (D : ℚ)) / 16)
      ≤ ((a + D : ℕ) : ℚ) by push_cast; linarith)
  rw [fl64_natCast (a + D) (by norm_num; omega)] at h
  exact h

/-- The calibrated formula of `output` on a current already inside `[4, 20]`. -/
theorem outputDigital_calibrated (s : DFRobot_GP8302) {m : ℚ} (hcal : s._calibration = true)
    (hab : s._dac_4 < s._dac_20) (hb : s._dac_20 ≤ 4095) (h4 : 4 ≤ m) (h20 : m ≤ 20) :
    outputDigital s m = some (roundingAdjustment
      (fl64 ((s._dac_4 : ℚ)
        + fl64 (fl32 (fl32 (m - 4) * ((s._dac_20 - s._dac_4 : ℕ) : ℚ)) / 16)))
      (s._dac_4 + ⌊fl32 (fl32 (fl32 (m - 4) * ((s._dac_20 - s._dac_4 : ℕ) : ℚ)) / 16)⌋.toNat)) := by
  have hD : s._dac_20 - s._dac_4 ≤ 4095 := by omega
  have hcast : ((((s._dac_20 : ℤ) - (s._dac_4 : ℤ) : ℤ)) : ℚ) = ((s._dac_20 - s._dac_4 : ℕ) : ℚ) := by
    rw [Nat.cast_sub hab.le]
    push_cast
    ring
  have hy0 : 0 ≤ fl32 (fl32 (fl32 (m - 4) * ((s._dac_20 - s._dac_4 : ℕ) : ℚ)) / 16) := by
    have := calibrated_product_nonneg (D := s._dac_20 - s._dac_4) h4
    exact fl32_nonneg (by positivity)
  have hy1 := calibrated_quotient_le hD h4 h20
  have hDq : ((s._dac_20 - s._dac_4 : ℕ) : ℚ) ≤ 4095 := by exact_mod_cast hD
  have ht : ⌊fl32 (fl32 (fl32 (m - 4) * ((s._dac_20 - s._dac_4 : ℕ) : ℚ)) / 16)⌋.toNat
      ≤ s._dac_20 - s._dac_4 := floor_toNat_le_of_le hy1
  have hlt : ¬ m < 0 := not_lt.mpr (by linarith)
  have hgt : ¬ m > 20 := not_lt.mpr h20
  have hcond : s._calibration = true ∧ m ≥ 4 ∧ m ≤ 20 := ⟨hcal, h4, h20⟩
  have h16 : ((20 : ℚ) - 4) = 16 := by norm_num
  simp only [outputDigital, calibratedProduct, GP8302_MAX_CURRENT, hlt, hgt, hcond, if_false,
    if_true, Nat.cast_ofNat, h16, and_self, hcast]
  rw [toUInt16_of_nonneg hy0 (by linarith)]
  simp only [Option.map_some']
  rw [Nat.mod_eq_of_lt (by omega)]

theorem calibrated_code_le {m : ℚ} {a D : ℕ} (hD : a + D ≤ 4095) (h4 : 4 ≤ m) (h20 : m ≤ 20) :
    roundingAdjustment (fl64 ((a : ℚ) + fl64 (fl32 (fl32 (m - 4) * (D : ℚ)) / 16)))
      (a + ⌊fl32 (fl32 (fl32 (m - 4) * (D : ℚ)) / 16)⌋.toNat) ≤ a + D := by
  have ht := floor_toNat_le_of_le (calibrated_quotient_le (show D ≤ 4095 by omega) h4 h20)
  exact roundingAdjustment_le (by omega) (calibrated_unrounded_le hD h4 h20) (by omega)

theorem calibrated_code_mono {m₁ m₂ : ℚ} {a D : ℕ} (hD : a + D ≤ 4095) (h41 : 4 ≤ m₁)
    (h : m₁ ≤ m₂) (h20 : m₂ ≤ 20) :
    roundingAdjustment (fl64 ((a : ℚ) + fl64 (fl32 (fl32 (m₁ - 4) * (D : ℚ)) / 16)))
        (a + ⌊fl32 (fl32 (fl32 (m₁ - 4) * (D : ℚ)) / 16)⌋.toNat)
      ≤ roundingAdjustment (fl64 ((a : ℚ) + fl64 (fl32 (fl32 (m₂ - 4) * (D : ℚ)) / 16)))
        (a + ⌊fl32 (fl32 (fl32 (m₂ - 4) * (D : ℚ)) / 16)⌋.toNat) := by
  have hDq : (0 : ℚ) ≤ (D : ℚ) := Nat.cast_nonneg D
  have hz : fl32 (m₁ - 4) ≤ fl32 (m₂ - 4) := fl32_mono (by linarith)
  have hP : fl32 (fl32 (m₁ - 4) * (D : ℚ)) ≤ fl32 (fl32 (m₂ - 4) * (D : ℚ)) :=
    fl32_mono (mul_le_mul_of_nonneg_right hz hDq)
  have hq : fl32 (fl32 (m₁ - 4) * (D : ℚ)) / 16 ≤ fl32 (fl32 (m₂ - 4) * (D : ℚ)) / 16 := by
    linarith
  have ht := floor_toNat_le_of_le
    (calibrated_quotient_le (show D ≤ 4095 by omega) (le_trans h41 h) h20)
  exact roundingAdjustment_mono
    (Nat.add_le_add_left (floor_toNat_mono (fl32_mono hq)) a)
    (fl64_mono (by linarith [fl64_mono hq])) (by omega)

/-- Rounding to binary32 a positive value with binary exponent `e` whose scaled value is
nearer to the integer `n` than to any other. -/
theorem fl32_eq_of_close {x v : ℚ} (e : ℤ) (n : ℤ) (he : -126 ≤ e)
    (h1 : 2 ^ e ≤ x) (h2 : x < 2 ^ (e + 1))
    (h3 : x / 2 ^ (e - 23) - n < 1 / 2) (h4 : (n : ℚ) - x / 2 ^ (e - 23) < 1 / 2)
    (hv : (n : ℚ) * 2 ^ (e - 23) = v) : fl32 x = v := by
  have hx : 0 < x := lt_of_lt_of_le (two_zpow_pos e) h1
  have h := roundMag_eq_of_close 23 (-126) e n he h1 h2
    (by simpa using h3) (by simpa using h4)
  rw [fl32, roundNearestEven_of_nonneg 23 _ hx.le, h]
  simpa using hv

/-- The direct conversion at a tie of the rounded product. -/
theorem outputDigital_direct_tie (s : DFRobot_GP8302) {m : ℚ} (h0 : 0 ≤ m) (h20 : m ≤ 20)
    (hc : ¬ (s._calibration = true ∧ m ≥ 4)) (n : ℕ) (hn : n ≤ 4094)
    (hp : fl32 (m * 4095) = 20 * (n : ℚ) + 10) : outputDigital s m = some (n + 1) := by
  have hq : fl32 (m * 4095) / 20 = ((2 * n + 1 : ℕ) : ℚ) / 2 := by
    rw [hp]; push_cast; ring
  have hfl : ⌊((2 * n + 1 : ℕ) : ℚ) / 2⌋ = (n : ℤ) := by
    rw [Int.floor_eq_iff]
    push_cast
    constructor <;> linarith
  rw [outputDigital_direct s h0 h20 hc, hq, fl32_half (2 * n + 1) (by norm_num; omega),
    fl64_half (2 * n + 1) (by norm_num; omega), hfl, Int.toNat_ofNat,
    roundingAdjustment_of_half_le (by push_cast; linarith), Nat.mod_eq_of_lt (by omega)]

theorem fl32_product_near_410 : fl32 ((8409093 / 4194304 : ℚ) * 4095) = 8210 :=
  fl32_eq_of_close 13 8407040 (by norm_num) (by norm_num) (by norm_num) (by norm_num)
    (by norm_num) (by norm_num)

theorem fl32_product_near_3681 : fl32 ((9426941 / 524288 : ℚ) * 4095) = 73630 :=
  fl32_eq_of_close 16 9424640 (by norm_num) (by norm_num) (by norm_num) (by norm_num)
    (by norm_num) (by norm_num)

theorem outputDigital_near_410 (s : DFRobot_GP8302) :
    outputDigital s (8409093 / 4194304) = some 411 := by
  have h := outputDigital_direct_tie s (m := 8409093 / 4194304) (by norm_num) (by norm_num)
    (fun h => absurd h.2 (by norm_num)) 410 (by norm_num)
    (by rw [fl32_product_near_410]; norm_num)
  exact h

theorem outputDigital_near_3681 (s : DFRobot_GP8302) (hcal : s._calibration = false) :
    outputDigital s (9426941 / 524288) = some 3682 := by
  have h := outputDigital_direct_tie s (m := 9426941 / 524288) (by norm_num) (by norm_num)
    (fun h => by simp [hcal] at h) 3681 (by norm_num)
    (by rw [fl32_product_near_3681]; norm_num)
  exact h

theorem outputDigital_ten (s : DFRobot_GP8302) (hcal : s._calibration = false) :
    outputDigital s 10 = some 2048 := by
  have hp : fl32 ((10 : ℚ) * 4095) = 20 * ((2047 : ℕ) : ℚ) + 10 := by
    have := fl32_natCast 40950 (by norm_num)
    norm_num at this ⊢
    exact this
  exact outputDigital_direct_tie s (m := 10) (by norm_num) (by norm_num)
    (fun h => by simp [hcal] at h) 2047 (by norm_num) hp

/-- The accepting path of `output_mA`, spelled out. -/
theorem output_mA_accept (s : DFRobot_GP8302) (w : TwoWire) {c : ℕ} (hc : c ≤ 4095) :
    output_mA s w c = ((c : ℚ) / 4095 * 20, { s with _digital := c },
      { txAddress := s._twiaddr, txBuffer := [],
        trace := w.trace ++ [BusEvent.transaction s._twiaddr
          [0x02, (c <<< 4) &&& 0xF0, (c >>> 4) &&& 0xFF]] }) := by
  have hgt : ¬ c > 4095 := by omega
  simp [output_mA, GP8302_CURRENT_RESOLUTION, GP8302_MAX_CURRENT, GP8302_CONFIG_CURRENT_REG,
    hgt, land_resolution hc, TwoWire.beginTransmission, TwoWire.write, TwoWire.endTransmission]

/-- The rejecting path of `output_mA`, spelled out. -/
theorem output_mA_reject (s : DFRobot_GP8302) (w : TwoWire) {c : ℕ} (hc : c > 4095) :
    output_mA s w c = (-1, s, w) := by
  simp [output_mA, GP8302_CURRENT_RESOLUTION, hc]

/-- What `output` does once the code it computed is known to be a 12-bit value. -/
theorem output_of_outputDigital (s : DFRobot_GP8302) (w : TwoWire) (m : ℚ) {c : ℕ}
    (hd : outputDigital s m = some c) (hc : c ≤ 4095) :
    output s w m = some (⌊(c : ℚ) / 4095 * 20⌋.toNat, { s with _digital := c },
      { txAddress := s._twiaddr, txBuffer := [],
        trace := w.trace ++ [BusEvent.transaction s._twiaddr
          [0x02, (c <<< 4) &&& 0xF0, (c >>> 4) &&& 0xFF]] }) := by
  have hcq : (c : ℚ) ≤ 4095 := by exact_mod_cast hc
  have hr0 : (0 : ℚ) ≤ (c : ℚ) / 4095 * 20 := by positivity
  have hr1 : (c : ℚ) / 4095 * 20 < 65536 := by
    have : (c : ℚ) / 4095 ≤ 1 := by
      rw [div_le_one (by norm_num)]; exact hcq
    linarith
  simp only [output, hd, Option.some_bind]
  rw [output_mA_accept { s with _digital := c } w hc]
  simp only [toUInt16_of_nonneg hr0 hr1, Option.map_some']


/-! ## Clamping, and the code for an arbitrary current -/

theorem outputDigital_neg (s : DFRobot_GP8302) {m : ℚ} (hm : m < 0) :
    outputDigital s m = outputDigital s 0 := by
  simp [outputDigital, hm, GP8302_MAX_CURRENT]

theorem outputDigital_above (s : DFRobot_GP8302) {m : ℚ} (hm : m > 20) :
    outputDigital s m = outputDigital s 20 := by
  have h0 : ¬ m < 0 := not_lt.mpr (by linarith)
  have e1 : (if m < 0 then 0 else m) = m := if_neg h0
  have e2 : (if m > 20 then (20 : ℚ) else m) = 20 := if_pos hm
  have e3 : (if (20 : ℚ) < 0 then (0 : ℚ) else 20) = 20 := by norm_num
  have e4 : (if (20 : ℚ) > 20 then (20 : ℚ) else 20) = 20 := by norm_num
  simp only [outputDigital, GP8302_MAX_CURRENT, Nat.cast_ofNat, e1, e2, e3, e4]

/-- With a well-formed calibration the code computed for a clamped current fits 12 bits. -/
theorem outputDigital_in_range (s : DFRobot_GP8302)
    (hinv : s._calibration = true → s._dac_4 < s._dac_20 ∧ s._dac_20 ≤ 4095)
    {m : ℚ} (h0 : 0 ≤ m) (h20 : m ≤ 20) :
    ∃ c : ℕ, c ≤ 4095 ∧ outputDigital s m = some c := by
  by_cases hc : s._calibration = true ∧ m ≥ 4
  · obtain ⟨hab, hb⟩ := hinv hc.1
    have hle := calibrated_code_le (m := m) (a := s._dac_4) (D := s._dac_20 - s._dac_4)
      (by omega) hc.2 h20
    exact ⟨_, by omega, outputDigital_calibrated s hc.1 hab hb hc.2 h20⟩
  · exact ⟨_, direct_code_le h0 h20, outputDigital_direct s h0 h20 hc⟩

/-- With a well-formed calibration the code computed for any current fits 12 bits. -/
theorem outputDigital_bounded (s : DFRobot_GP8302)
    (hinv : s._calibration = true → s._dac_4 < s._dac_20 ∧ s._dac_20 ≤ 4095) (m : ℚ) :
    ∃ c : ℕ, c ≤ 4095 ∧ outputDigital s m = some c := by
  rcases lt_or_le m 0 with hneg | h0
  · rw [outputDigital_neg s hneg]
    exact outputDigital_in_range s hinv le_rfl (by norm_num)
  · rcases lt_or_le 20 m with hgt | h20
    · rw [outputDigital_above s hgt]
      exact outputDigital_in_range s hinv (by norm_num) le_rfl
    · exact outputDigital_in_range s hinv h0 h20

/-- On an uncalibrated device the code is the direct conversion of the clamped current. -/
theorem outputDigital_uncalibrated (s : DFRobot_GP8302) (hcal : s._calibration = false)
    (m : ℚ) :
    outputDigital s m = some (roundingAdjustment
      (fl64 (fl32 (max 0 (min m 20) * 4095) / 20))
      ⌊fl32 (fl32 (max 0 (min m 20) * 4095) / 20)⌋.toNat) := by
  have hc : ∀ x : ℚ, ¬ (s._calibration = true ∧ x ≥ 4) := fun x h => by simp [hcal] at h
  rcases lt_or_le m 0 with hneg | h0
  · have hcl : max 0 (min m 20) = 0 := by
      rw [min_eq_left (by linarith), max_eq_left hneg.le]
    rw [outputDigital_neg s hneg, hcl]
    exact outputDigital_direct s le_rfl (by norm_num) (hc 0)
  · rcases lt_or_le 20 m with hgt | h20
    · have hcl : max 0 (min m 20) = 20 := by
        rw [min_eq_right hgt.le, max_eq_right (by norm_num)]
      rw [outputDigital_above s hgt, hcl]
      exact outputDigital_direct s (by norm_num) le_rfl (hc 20)
    · have hcl : max 0 (min m 20) = m := by
        rw [min_eq_left h20, max_eq_right h0]
      rw [hcl]
      exact outputDigital_direct s h0 h20 (hc m)

/-- An integer within `1/2 + 1/1000` of `x` is `floor (x + 1/2)` unless `x` lies within
`1/1000` of a half-integer. -/
theorem eq_roundHalfUp_of_close {c : ℕ} {x : ℚ} (h1 : (c : ℚ) - x ≤ 1 / 2 + 1 / 1000)
    (h2 : x - (c : ℚ) ≤ 1 / 2 + 1 / 1000) (hfar : 1 / 1000 < |x - ⌊x⌋ - 1 / 2|) :
    (c : ℤ) = roundHalfUp x := by
  have hle : ((⌊x⌋ : ℤ) : ℚ) ≤ x := Int.floor_le x
  have hlt : x < ((⌊x⌋ : ℤ) : ℚ) + 1 := Int.lt_floor_add_one x
  unfold roundHalfUp
  rcases lt_abs.mp hfar with h | h
  · have hf : ⌊x + 1 / 2⌋ = ⌊x⌋ + 1 := by
      rw [Int.floor_eq_iff]
      push_cast
      constructor <;> linarith
    have ha : (((⌊x⌋ : ℤ) : ℤ) : ℚ) < (((c : ℤ) : ℤ) : ℚ) := by push_cast; linarith
    have hb : (((c : ℤ) : ℤ) : ℚ) < ((⌊x⌋ + 2 : ℤ) : ℚ) := by push_cast; linarith
    have ha' : ⌊x⌋ < (c : ℤ) := by exact_mod_cast ha
    have hb' : (c : ℤ) < ⌊x⌋ + 2 := by exact_mod_cast hb
    omega
  · have hf : ⌊x + 1 / 2⌋ = ⌊x⌋ := by
      rw [Int.floor_eq_iff]
      constructor <;> linarith
    have ha : ((⌊x⌋ - 1 : ℤ) : ℚ) < (((c : ℤ) : ℤ) : ℚ) := by push_cast; linarith
    have hb : (((c : ℤ) : ℤ) : ℚ) < ((⌊x⌋ + 1 : ℤ) : ℚ) := by push_cast; linarith
    have ha' : ⌊x⌋ - 1 < (c : ℤ) := by exact_mod_cast ha
    have hb' : (c : ℤ) < ⌊x⌋ + 1 := by exact_mod_cast hb
    omega

/-! ## Conversion of a current to a code -/

/-- Counterexample for C1: `8409093 / 4194304` is a binary32 value in `[0, 20]`; on a fresh
device `output` programs code 411 for it, whereas `floor (m * 4095 / 20 + 1/2)` is 410. -/
theorem output_uncalibrated_code_counterexample :
    fl32 (8409093 / 4194304) = 8409093 / 4194304 ∧
    (0 : ℚ) ≤ 8409093 / 4194304 ∧ (8409093 / 4194304 : ℚ) ≤ 20 ∧
    (output (DFRobot_GP8302.new 0x58) ⟨0, [], []⟩ (8409093 / 4194304)).map
      (fun r => r.2.1._digital) = some 411 ∧
    ⌊(8409093 / 4194304 : ℚ) * 4095 / 20 + 1 / 2⌋ = 410 := by
  refine ⟨?_, by norm_num, by norm_num, ?_, ?_⟩
  · have h := roundNearestEven_of_repr 23 (-126) 8409093 (-22) (by norm_num)
      (by norm_num)
    have e : ((8409093 : ℕ) : ℚ) * 2 ^ (-22 : ℤ) = 8409093 / 4194304 := by norm_num
    rw [e] at h
    exact h
  · rw [output_of_outputDigital _ _ _ (outputDigital_near_410 _) (by decide)]
    rfl
  · rw [Int.floor_eq_iff]
    norm_num

/-- Claim C1, amended: on an uncalibrated device a current `m` in `[0, 20]` is programmed
as a code `c`, stored in `_digital` and carried by the single transaction, that lies within
`1/2 + 1/1000` of `m * 4095 / 20`. It is `floor (m * 4095 / 20 + 1/2)` unless
`m * 4095 / 20` is within `1/1000` of a half-integer, and an exact tie rounds up. -/
theorem output_uncalibrated_code (s : DFRobot_GP8302) (w : TwoWire) (m : ℚ)
    (hcal : s._calibration = false) (h0 : 0 ≤ m) (h20 : m ≤ 20) :
    ∃ c : ℕ,
      output s w m = some (⌊(c : ℚ) / 4095 * 20⌋.toNat, { s with _digital := c },
        { txAddress := s._twiaddr, txBuffer := [],
          trace := w.trace ++ [BusEvent.transaction s._twiaddr
            [0x02, (c <<< 4) &&& 0xF0, (c >>> 4) &&& 0xFF]] }) ∧
      |(c : ℚ) - m * 4095 / 20| ≤ 1 / 2 + 1 / 1000 ∧
      (1 / 1000 < |m * 4095 / 20 - ⌊m * 4095 / 20⌋ - 1 / 2| →
        (c : ℤ) = ⌊m * 4095 / 20 + 1 / 2⌋) ∧
      (∀ n : ℕ, m * 4095 / 20 = (n : ℚ) + 1 / 2 → c = n + 1) := by
  have hc : ¬ (s._calibration = true ∧ m ≥ 4) := by simp [hcal]
  have hd := outputDigital_direct s h0 h20 hc
  have hle := direct_code_le h0 h20
  obtain ⟨hc1, hc2⟩ := direct_code_close h0 h20
  refine ⟨_, output_of_outputDigital s w m hd hle, abs_le.mpr ⟨by linarith, hc1⟩,
    fun hfar => eq_roundHalfUp_of_close hc1 hc2 hfar, fun n hn => ?_⟩
  have hn1 : (n : ℚ) ≤ 4094 + 1 / 2 := by linarith
  have hn2 : n ≤ 4094 := by
    have : (n : ℚ) < ((4095 : ℕ) : ℚ) := by push_cast; linarith
    have : n < 4095 := by exact_mod_cast this
    omega
  have hp : fl32 (m * 4095) = 20 * (n : ℚ) + 10 := by
    have e : m * 4095 = ((20 * n + 10 : ℕ) : ℚ) := by push_cast; linarith
    rw [e, fl32_natCast (20 * n + 10) (by norm_num; omega)]
    push_cast; ring
  have ht := outputDigital_direct_tie s h0 h20 hc n hn2 hp
  rw [hd] at ht
  exact Option.some.inj ht

/-- Witness for the amended C1: a fresh device asked for 1 mA, where `m * 4095 / 20` is
`204.75`. -/
theorem output_uncalibrated_code_witness :
    (DFRobot_GP8302.new 0x58)._calibration = false ∧ (0 : ℚ) ≤ 1 ∧ (1 : ℚ) ≤ 20 ∧
    ∃ c : ℕ,
      output (DFRobot_GP8302.new 0x58) ⟨0, [], []⟩ 1
        = some (⌊(c : ℚ) / 4095 * 20⌋.toNat, ⟨0x58, false, 0, 0, c⟩,
          { txAddress := 0x58, txBuffer := [],
            trace := [] ++ [BusEvent.transaction 0x58
              [0x02, (c <<< 4) &&& 0xF0, (c >>> 4) &&& 0xFF]] }) ∧
      |(c : ℚ) - 1 * 4095 / 20| ≤ 1 / 2 + 1 / 1000 ∧
      (1 / 1000 < |(1 : ℚ) * 4095 / 20 - ⌊(1 : ℚ) * 4095 / 20⌋ - 1 / 2| →
        (c : ℤ) = ⌊(1 : ℚ) * 4095 / 20 + 1 / 2⌋) ∧
      (∀ n : ℕ, (1 : ℚ) * 4095 / 20 = (n : ℚ) + 1 / 2 → c = n + 1) :=
  ⟨rfl, by norm_num, by norm_num,
    output_uncalibrated_code (DFRobot_GP8302.new 0x58) ⟨0, [], []⟩ 1 rfl (by norm_num)
      (by norm_num)⟩

/-- Claim C3: for a code `c ≤ 4095`, `output_mA` appends exactly one transaction to the
trace, addressed to the device, with payload `[0x02, (c << 4) & 0xF0, (c >> 4) & 0xFF]`. -/
theorem output_mA_wire_format (s : DFRobot_GP8302) (w : TwoWire) (c : ℕ) (hc : c ≤ 4095) :
    (output_mA s w c).2.2.trace = w.trace ++ [BusEvent.transaction s._twiaddr
      [0x02, (c <<< 4) &&& 0xF0, (c >>> 4) &&& 0xFF]] := by
  rw [output_mA_accept s w hc]

/-- Witness for C3: code `0xABC` sent to the default address gives bytes `02 C0 AB`. -/
theorem output_mA_wire_format_witness :
    (0xABC : ℕ) ≤ 4095 ∧
    (output_mA (DFRobot_GP8302.new 0x58) ⟨0, [], []⟩ 0xABC).2.2.trace
      = (⟨0, [], []⟩ : TwoWire).trace ++ [BusEvent.transaction (DFRobot_GP8302.new 0x58)._twiaddr
        [0x02, (0xABC <<< 4) &&& 0xF0, (0xABC >>> 4) &&& 0xFF]] :=
  ⟨by decide, output_mA_wire_format (DFRobot_GP8302.new 0x58) ⟨0, [], []⟩ 0xABC (by decide)⟩

/-- Claim C4: for a code `c ≤ 4095`, `output_mA` returns `c / 4095 * 20`; in particular it
returns `0` for code `0` and `20` for code `4095`. -/
theorem output_mA_returns_current (s : DFRobot_GP8302) (w : TwoWire) :
    (∀ c : ℕ, c ≤ 4095 → (output_mA s w c).1 = (c : ℚ) / 4095 * 20) ∧
    (output_mA s w 0).1 = 0 ∧ (output_mA s w 4095).1 = 20 := by
  refine ⟨fun c hc => ?_, ?_, ?_⟩
  · rw [output_mA_accept s w hc]
  · rw [output_mA_accept s w (by decide)]; norm_num
  · rw [output_mA_accept s w (by decide)]; norm_num

/-- Witness for C4: code `2048` on a fresh device. -/
theorem output_mA_returns_current_witness :
    (2048 : ℕ) ≤ 4095 ∧
    (output_mA (DFRobot_GP8302.new 0x58) ⟨0, [], []⟩ 2048).1 = ((2048 : ℕ) : ℚ) / 4095 * 20 :=
  ⟨by decide,
    (output_mA_returns_current (DFRobot_GP8302.new 0x58) ⟨0, [], []⟩).1 2048 (by decide)⟩

/-- Claim C5: for a code `c > 4095`, `output_mA` returns `-1` and leaves both the device
record and the bus (trace included) exactly as they were. -/
theorem output_mA_rejects (s : DFRobot_GP8302) (w : TwoWire) (c : ℕ) (hc : c > 4095) :
    output_mA s w c = (-1, s, w) :=
  output_mA_reject s w hc

/-- Witness for C5: code `4096` on a calibrated device that last wrote `7`. -/
theorem output_mA_rejects_witness :
    (4096 : ℕ) > 4095 ∧
    output_mA ⟨0x58, true, 800, 3200, 7⟩ ⟨0x58, [], [BusEvent.init]⟩ 4096
      = (-1, ⟨0x58, true, 800, 3200, 7⟩, ⟨0x58, [], [BusEvent.init]⟩) :=
  ⟨by decide, output_mA_rejects ⟨0x58, true, 800, 3200, 7⟩ ⟨0x58, [], [BusEvent.init]⟩ 4096
    (by decide)⟩

/-! ## Calibration -/

/-- Claim C6: a pair with `a ≥ b` or `b > 4095` is ignored by `calibration4_20mA`: the
device record, and with it the flag and both calibration codes, is unchanged. -/
theorem calibration4_20mA_rejects (s : DFRobot_GP8302) (a b : ℕ) (h : a ≥ b ∨ b > 4095) :
    calibration4_20mA s a b = s ∧
    (calibration4_20mA s a b)._calibration = s._calibration ∧
    (calibration4_20mA s a b)._dac_4 = s._dac_4 ∧
    (calibration4_20mA s a b)._dac_20 = s._dac_20 := by
  have hs : calibration4_20mA s a b = s := by
    simp [calibration4_20mA, GP8302_CURRENT_RESOLUTION, h]
  rw [hs]
  exact ⟨rfl, rfl, rfl, rfl⟩

/-- Witness for C6: `(100, 50)` on a fresh device, which stays uncalibrated, and
`(10, 5000)` on a device calibrated with `(800, 3200)`, which keeps that pair. -/
theorem calibration4_20mA_rejects_witness :
    ((100 : ℕ) ≥ 50 ∨ (50 : ℕ) > 4095) ∧ ((10 : ℕ) ≥ 5000 ∨ (5000 : ℕ) > 4095) ∧
    (calibration4_20mA (DFRobot_GP8302.new 0x58) 100 50)._calibration = false ∧
    calibration4_20mA (calibration4_20mA (DFRobot_GP8302.new 0x58) 800 3200) 10 5000
      = ⟨0x58, true, 800, 3200, 0⟩ := by
  have h1 := calibration4_20mA_rejects (DFRobot_GP8302.new 0x58) 100 50 (Or.inl (by decide))
  have h2 := calibration4_20mA_rejects
    (calibration4_20mA (DFRobot_GP8302.new 0x58) 800 3200) 10 5000 (Or.inr (by decide))
  exact ⟨Or.inl (by decide), Or.inr (by decide), h1.2.1, h2.1.trans (by decide)⟩

/-! ## The last written code -/

/-- Counterexample for C7: on a fresh device `output_mA 4097` leaves `_digital` at `0`,
whereas `4097 & 0x0FFF` is `1`. -/
theorem output_mA_lastCode_counterexample :
    (output_mA (DFRobot_GP8302.new 0x58) ⟨0, [], []⟩ 4097).2.1._digital = 0 ∧
    4097 &&& 0x0FFF = 1 ∧
    (output_mA (DFRobot_GP8302.new 0x58) ⟨0, [], []⟩ 4097).2.1._digital ≠ 4097 &&& 0x0FFF := by
  rw [output_mA_reject _ _ (by decide : 4097 > 4095)]
  decide

/-- Claim C7, amended: after `output_mA c` the field `_digital` equals `c & 0x0FFF` when
`c ≤ 4095` (and that is `c` itself), and keeps its previous value when `c > 4095`. -/
theorem output_mA_lastCode (s : DFRobot_GP8302) (w : TwoWire) (c : ℕ) :
    (c ≤ 4095 → (output_mA s w c).2.1._digital = c &&& 0x0FFF ∧ c &&& 0x0FFF = c) ∧
    (c > 4095 → (output_mA s w c).2.1._digital = s._digital) := by
  constructor
  · intro hc
    rw [output_mA_accept s w hc]
    exact ⟨(land_resolution hc).symm, land_resolution hc⟩
  · intro hc
    rw [output_mA_reject s w hc]

/-- Witness for the amended C7: code `0xABC` is stored, code `4097` is not. -/
theorem output_mA_lastCode_witness :
    ((output_mA (DFRobot_GP8302.new 0x58) ⟨0, [], []⟩ 0xABC).2.1._digital = 0xABC &&& 0x0FFF
      ∧ 0xABC &&& 0x0FFF = 0xABC) ∧
    (output_mA ⟨0x58, false, 0, 0, 7⟩ ⟨0, [], []⟩ 4097).2.1._digital
      = (⟨0x58, false, 0, 0, 7⟩ : DFRobot_GP8302)._digital :=
  ⟨(output_mA_lastCode (DFRobot_GP8302.new 0x58) ⟨0, [], []⟩ 0xABC).1 (by decide),
    (output_mA_lastCode ⟨0x58, false, 0, 0, 7⟩ ⟨0, [], []⟩ 4097).2 (by decide)⟩

/-! ## Clamping -/

/-- Claim C9: in every device state a current below `0` is treated exactly as `0` and a
current above `20` exactly as `20`: same return value, same device record, same bus. -/
theorem output_clamps (s : DFRobot_GP8302) (w : TwoWire) (m : ℚ) :
    (m < 0 → output s w m = output s w 0) ∧ (m > 20 → output s w m = output s w 20) := by
  constructor
  · intro hm
    simp only [output, outputDigital_neg s hm]
  · intro hm
    simp only [output, outputDigital_above s hm]

/-- Witness for C9: `-3` and `25` on a device calibrated with `(800, 3200)`. -/
theorem output_clamps_witness :
    output ⟨0x58, true, 800, 3200, 0⟩ ⟨0, [], []⟩ (-3)
      = output ⟨0x58, true, 800, 3200, 0⟩ ⟨0, [], []⟩ 0 ∧
    output ⟨0x58, true, 800, 3200, 0⟩ ⟨0, [], []⟩ 25
      = output ⟨0x58, true, 800, 3200, 0⟩ ⟨0, [], []⟩ 20 :=
  ⟨(output_clamps ⟨0x58, true, 800, 3200, 0⟩ ⟨0, [], []⟩ (-3)).1 (by norm_num),
    (output_clamps ⟨0x58, true, 800, 3200, 0⟩ ⟨0, [], []⟩ 25).2 (by norm_num)⟩

/-! ## The store handshake -/

/-- Claim C10: `store` appends to the trace exactly transaction `[0x02]`, delay 10,
transaction `[0x10, 0x03]`, delay 10, transaction of eight `0x00`, delay 10, every
transaction addressed to `_twiaddr`; the calibration fields and `_digital` play no part. -/
theorem store_handshake (s : DFRobot_GP8302) (w : TwoWire) :
    (store s w).trace = w.trace ++
      [BusEvent.transaction s._twiaddr [0x02], BusEvent.delay 10,
       BusEvent.transaction s._twiaddr [0x10, 0x03], BusEvent.delay 10,
       BusEvent.transaction s._twiaddr [0x00, 0x00, 0x00, 0x00, 0x00, 0x00, 0x00, 0x00],
       BusEvent.delay 10] ∧
    ∀ (cal : Bool) (d4 d20 dig : ℕ),
      store { s with _calibration := cal, _dac_4 := d4, _dac_20 := d20, _digital := dig } w
        = store s w := by
  constructor
  · simp [store, delay, TwoWire.beginTransmission, TwoWire.write, TwoWire.endTransmission,
      GP8302_STORE_TIMING_HEAD, GP8302_STORE_TIMING_ADDR, GP8302_STORE_TIMING_CMD1,
      GP8302_STORE_TIMING_CMD2, GP8302_STORE_TIMING_DELAY, List.range_succ]
  · intro cal d4 d20 dig
    rfl

/-! ## The value handed back by `output` -/

theorem floor_fresh_ten : ⌊((2048 : ℕ) : ℚ) / 4095 * 20⌋.toNat = 10 := by
  have : ⌊((2048 : ℕ) : ℚ) / 4095 * 20⌋ = 10 := by
    rw [Int.floor_eq_iff]
    norm_num
  rw [this]
  rfl

/-- When the calibration is well formed (none, or `_dac_4 < _dac_20 ≤ 4095`), `output`
programs a code `c ≤ 4095`, `output_mA` accepts it and returns `c / 4095 * 20`, and the
conversion of that value to the `uint16_t` return type of `output` yields
`floor (c / 4095 * 20)`. -/
theorem output_defined (s : DFRobot_GP8302) (w : TwoWire) (m : ℚ)
    (hinv : s._calibration = true → s._dac_4 < s._dac_20 ∧ s._dac_20 ≤ 4095) :
    ∃ c : ℕ, c ≤ 4095 ∧ outputDigital s m = some c ∧
      (output_mA { s with _digital := c } w c).1 = (c : ℚ) / 4095 * 20 ∧
      (output_mA { s with _digital := c } w c).2.1._digital = c ∧
      output s w m = some (⌊(c : ℚ) / 4095 * 20⌋.toNat,
        (output_mA { s with _digital := c } w c).2.1,
        (output_mA { s with _digital := c } w c).2.2) := by
  obtain ⟨c, hc, hd⟩ := outputDigital_bounded s hinv m
  refine ⟨c, hc, hd, ?_, ?_, ?_⟩
  · rw [output_mA_accept _ w hc]
  · rw [output_mA_accept _ w hc]
  · rw [output_mA_accept _ w hc]
    exact output_of_outputDigital s w m hd hc

/-- Claim C8, the code at the failing input: a fresh device asked for 10 mA programs code
2048, for which `output_mA` returns `2048 / 4095 * 20`, yet `output` hands back `10`, the
integer part left by the conversion to its `uint16_t` return type. -/
theorem output_fresh_ten_returns_ten :
    output (DFRobot_GP8302.new 0x58) ⟨0, [], []⟩ 10
      = some (10, ⟨0x58, false, 0, 0, 2048⟩,
          ⟨0x58, [], [BusEvent.transaction 0x58 [2, 0, 128]]⟩) ∧
    (output_mA ⟨0x58, false, 0, 0, 2048⟩ ⟨0, [], []⟩ 2048).1 = 2048 / 4095 * 20 ∧
    ((10 : ℕ) : ℚ) ≠ 2048 / 4095 * 20 := by
  refine ⟨?_, ?_, ?_⟩
  · rw [output_of_outputDigital _ _ _ (outputDigital_ten _ rfl) (by decide), floor_fresh_ten]
    rfl
  · rw [output_mA_accept _ _ (by decide)]
    norm_num
  · norm_num

/-! ## The presence probe -/

/-- Claim C11: `begin` initialises the bus and issues exactly one transaction, addressed to
`_twiaddr` and with no payload byte; it returns `true` exactly when the status reported for
that transaction is `0`, whatever the address and the status are. -/
theorem begin_probe (s : DFRobot_GP8302) (w : TwoWire) (status : ℕ) :
    (DFRobot_GP8302.begin s w status).2.trace
      = w.trace ++ [BusEvent.init, BusEvent.transaction s._twiaddr []] ∧
    ((DFRobot_GP8302.begin s w status).1 = true ↔ status = 0) ∧
    ((DFRobot_GP8302.begin s w status).1 = false ↔ status ≠ 0) := by
  by_cases h : status = 0 <;>
    simp [DFRobot_GP8302.begin, TwoWire.begin, TwoWire.beginTransmission,
      TwoWire.endTransmission, h]

/-! ## The two-byte encoding -/

theorem and_0xF0_of_lt : ∀ r : ℕ, r < 16 → (r * 16) &&& 0xF0 = r * 16 := by
  decide

theorem low_byte_eq (c : ℕ) : (c <<< 4) &&& 0xF0 = (c % 16) * 16 := by
  have hmask : (2 ^ 8 - 1) &&& 0xF0 = 0xF0 := by decide
  have h1 : (c <<< 4) &&& 0xF0 = ((c <<< 4) % 2 ^ 8) &&& 0xF0 := by
    rw [← Nat.and_pow_two_sub_one_eq_mod, Nat.and_assoc, hmask]
  have h2 : (c <<< 4) % 2 ^ 8 = (c % 16) * 16 := by
    rw [Nat.shiftLeft_eq]
    omega
  rw [h1, h2]
  exact and_0xF0_of_lt (c % 16) (Nat.mod_lt c (by decide))

theorem high_byte_eq {c : ℕ} (hc : c ≤ 4095) : (c >>> 4) &&& 0xFF = c / 16 := by
  have h1 : (c >>> 4) &&& (2 ^ 8 - 1) = (c >>> 4) % 2 ^ 8 :=
    Nat.and_pow_two_sub_one_eq_mod (c >>> 4) 8
  have h2 : c >>> 4 = c / 2 ^ 4 := Nat.shiftRight_eq_div_pow c 4
  have h3 : (2 : ℕ) ^ 8 - 1 = 0xFF := by decide
  rw [h3] at h1
  rw [h1, h2]
  omega

/-- Reassembling the two payload bytes gives the code back. -/
theorem encoding_roundtrip {c : ℕ} (hc : c ≤ 4095) :
    (c <<< 4) &&& 0xF0 ≤ 255 ∧ (c >>> 4) &&& 0xFF ≤ 255 ∧
    ((((c >>> 4) &&& 0xFF) <<< 4) ||| (((c <<< 4) &&& 0xF0) >>> 4)) = c := by
  rw [low_byte_eq c, high_byte_eq hc]
  refine ⟨by omega, by omega, ?_⟩
  have h1 : (c % 16 * 16) >>> 4 = c % 16 := by
    rw [Nat.shiftRight_eq_div_pow]
    omega
  have h2 : (c / 16) <<< 4 = 2 ^ 4 * (c / 16) := by
    rw [Nat.shiftLeft_eq, Nat.mul_comm]
  have h3 : c % 16 < 2 ^ 4 := Nat.mod_lt c (by decide)
  rw [h1, h2, ← Nat.mul_add_lt_is_or h3]
  omega

/-- Claim C17: for `c ≤ 4095` the two data bytes `output_mA` transmits, `low = (c << 4) & 0xF0`
and `high = (c >> 4) & 0xFF`, are both at most 255 and satisfy `(high << 4) | (low >> 4) = c`;
hence two codes in `[0, 4095]` that put the same transaction on the bus are equal. -/
theorem output_mA_encoding_lossless (s : DFRobot_GP8302) (w : TwoWire) (c : ℕ)
    (hc : c ≤ 4095) :
    ∃ low high : ℕ, low = (c <<< 4) &&& 0xF0 ∧ high = (c >>> 4) &&& 0xFF ∧
      (output_mA s w c).2.2.trace
        = w.trace ++ [BusEvent.transaction s._twiaddr [0x02, low, high]] ∧
      low ≤ 255 ∧ high ≤ 255 ∧ ((high <<< 4) ||| (low >>> 4)) = c ∧
      ∀ c' : ℕ, c' ≤ 4095 →
        (output_mA s w c').2.2.trace = (output_mA s w c).2.2.trace → c' = c := by
  obtain ⟨hl, hh, hdec⟩ := encoding_roundtrip hc
  refine ⟨(c <<< 4) &&& 0xF0, (c >>> 4) &&& 0xFF, rfl, rfl, ?_, hl, hh, hdec, ?_⟩
  · rw [output_mA_accept s w hc]
  · intro c' hc' heq
    obtain ⟨_, _, hdec'⟩ := encoding_roundtrip hc'
    rw [output_mA_accept s w hc, output_mA_accept s w hc'] at heq
    have hpay := List.append_cancel_left heq
    simp only [List.cons.injEq, BusEvent.transaction.injEq, and_true, true_and] at hpay
    rw [← hdec', ← hdec, hpay.1, hpay.2]

/-- Witness for C17: code `0xABC` travels as `C0 AB`, and `(0xAB << 4) | (0xC0 >> 4)` is
`0xABC` again. -/
theorem output_mA_encoding_lossless_witness :
    (0xABC : ℕ) ≤ 4095 ∧
    ∃ low high : ℕ, low = (0xABC <<< 4) &&& 0xF0 ∧ high = (0xABC >>> 4) &&& 0xFF ∧
      (output_mA (DFRobot_GP8302.new 0x58) ⟨0, [], []⟩ 0xABC).2.2.trace
        = (⟨0, [], []⟩ : TwoWire).trace
          ++ [BusEvent.transaction (DFRobot_GP8302.new 0x58)._twiaddr [0x02, low, high]] ∧
      low ≤ 255 ∧ high ≤ 255 ∧ ((high <<< 4) ||| (low >>> 4)) = 0xABC ∧
      ∀ c' : ℕ, c' ≤ 4095 →
        (output_mA (DFRobot_GP8302.new 0x58) ⟨0, [], []⟩ c').2.2.trace
          = (output_mA (DFRobot_GP8302.new 0x58) ⟨0, [], []⟩ 0xABC).2.2.trace → c' = 0xABC :=
  ⟨by decide,
    output_mA_encoding_lossless (DFRobot_GP8302.new 0x58) ⟨0, [], []⟩ 0xABC (by decide)⟩

/-! ## Invariants of reachable states -/

/-- One call keeps the calibration well formed and `_digital` within 12 bits, and is
always defined on such a state. -/
theorem step_preserves (st : DFRobot_GP8302 × TwoWire) (call : Call)
    (hcal : st.1._calibration = true → st.1._dac_4 < st.1._dac_20 ∧ st.1._dac_20 ≤ 4095)
    (hdig : st.1._digital ≤ 4095) :
    ∃ st' : DFRobot_GP8302 × TwoWire, step st call = some st' ∧
      (st'.1._calibration = true → st'.1._dac_4 < st'.1._dac_20 ∧ st'.1._dac_20 ≤ 4095) ∧
      st'.1._digital ≤ 4095 := by
  cases call with
  | begin status => exact ⟨_, rfl, hcal, hdig⟩
  | calibration4_20mA a b =>
    refine ⟨_, rfl, ?_, ?_⟩
    · by_cases hrej : a ≥ b ∨ b > 4095
      · simpa [calibration4_20mA, GP8302_CURRENT_RESOLUTION, hrej] using hcal
      · intro _
        simp only [calibration4_20mA, GP8302_CURRENT_RESOLUTION, hrej, if_false]
        omega
    · by_cases hrej : a ≥ b ∨ b > 4095
      · simpa [calibration4_20mA, GP8302_CURRENT_RESOLUTION, hrej] using hdig
      · simpa [calibration4_20mA, GP8302_CURRENT_RESOLUTION, hrej] using hdig
  | output_mA dac =>
    refine ⟨_, rfl, ?_, ?_⟩
    · rcases Nat.lt_or_ge 4095 dac with hgt | hle
      · rw [output_mA_reject st.1 st.2 hgt]; exact hcal
      · rw [output_mA_accept st.1 st.2 hle]; exact hcal
    · rcases Nat.lt_or_ge 4095 dac with hgt | hle
      · rw [output_mA_reject st.1 st.2 hgt]; exact hdig
      · rw [output_mA_accept st.1 st.2 hle]; exact hle
  | output m =>
    obtain ⟨c, hc, hd⟩ := outputDigital_bounded st.1 hcal m
    have hstep : step st (Call.output m) = some ({ st.1 with _digital := c },
        { txAddress := st.1._twiaddr, txBuffer := [],
          trace := st.2.trace ++ [BusEvent.transaction st.1._twiaddr
            [0x02, (c <<< 4) &&& 0xF0, (c >>> 4) &&& 0xFF]] }) := by
      simp only [step, output_of_outputDigital st.1 st.2 m hd hc, Option.map_some']
    exact ⟨_, hstep, hcal, hc⟩
  | store => exact ⟨_, rfl, hcal, hdig⟩

/-- Every sequence of calls runs to completion from a state with a well-formed calibration
and a 12-bit `_digital`, and ends in such a state. -/
theorem run_preserves (calls : List Call) :
    ∀ st : DFRobot_GP8302 × TwoWire,
      (st.1._calibration = true → st.1._dac_4 < st.1._dac_20 ∧ st.1._dac_20 ≤ 4095) →
      st.1._digital ≤ 4095 →
      ∃ st' : DFRobot_GP8302 × TwoWire, run calls st = some st' ∧
        (st'.1._calibration = true → st'.1._dac_4 < st'.1._dac_20 ∧ st'.1._dac_20 ≤ 4095) ∧
        st'.1._digital ≤ 4095 := by
  induction calls with
  | nil => intro st hcal hdig; exact ⟨st, rfl, hcal, hdig⟩
  | cons call rest ih =>
    intro st hcal hdig
    obtain ⟨st1, hstep, hcal1, hdig1⟩ := step_preserves st call hcal hdig
    obtain ⟨st2, hrun, hcal2, hdig2⟩ := ih st1 hcal1 hdig1
    exact ⟨st2, by simp only [run, hstep, Option.some_bind, hrun], hcal2, hdig2⟩

/-- Claim C12: any sequence of `begin`, `calibration4_20mA`, `output_mA`, `output` and `store`
calls, with arbitrary arguments, runs to completion from a freshly constructed device, and
in the state it reaches `_calibration = true` implies `_dac_4 < _dac_20 ≤ 4095`. -/
theorem calibration_invariant (twiaddr : ℕ) (w : TwoWire) (calls : List Call) :
    ∃ st : DFRobot_GP8302 × TwoWire, run calls (DFRobot_GP8302.new twiaddr, w) = some st ∧
      (st.1._calibration = true → st.1._dac_4 < st.1._dac_20 ∧ st.1._dac_20 ≤ 4095) := by
  obtain ⟨st, hrun, hcal, _⟩ := run_preserves calls (DFRobot_GP8302.new twiaddr, w)
    (fun h => absurd h (by simp [DFRobot_GP8302.new])) (by simp [DFRobot_GP8302.new])
  exact ⟨st, hrun, hcal⟩

/-- Claim C13: in the state any sequence of calls reaches from a freshly constructed device
`_digital` is at most 4095, and the value `output` assigns to `_digital` before it calls
`output_mA` is at most 4095 for every requested current. -/
theorem digital_invariant (twiaddr : ℕ) (w : TwoWire) (calls : List Call) :
    ∃ st : DFRobot_GP8302 × TwoWire, run calls (DFRobot_GP8302.new twiaddr, w) = some st ∧
      st.1._digital ≤ 4095 ∧
      ∀ m : ℚ, ∃ c : ℕ, outputDigital st.1 m = some c ∧ c ≤ 4095 := by
  obtain ⟨st, hrun, hcal, hdig⟩ := run_preserves calls (DFRobot_GP8302.new twiaddr, w)
    (fun h => absurd h (by simp [DFRobot_GP8302.new])) (by simp [DFRobot_GP8302.new])
  refine ⟨st, hrun, hdig, fun m => ?_⟩
  obtain ⟨c, hc, hd⟩ := outputDigital_bounded st.1 hcal m
  exact ⟨c, hd, hc⟩

/-! ## The rounding adjustment against round-half-up of the exact value -/

/-- Claim C16: with no calibration, or with `_dac_4 < _dac_20 ≤ 4095`, the code `output`
computes (adjustment included) is at most 4095 for every current, the inner `output_mA`
call does not return `-1`, and `output` appends exactly one transaction to the trace. -/
theorem output_never_rejected (s : DFRobot_GP8302) (w : TwoWire) (m : ℚ)
    (hinv : s._calibration = true → s._dac_4 < s._dac_20 ∧ s._dac_20 ≤ 4095) :
    ∃ c : ℕ, outputDigital s m = some c ∧ c ≤ 4095 ∧
      (output_mA { s with _digital := c } w c).1 ≠ -1 ∧
      ∃ v : ℕ, output s w m = some (v, { s with _digital := c },
        { txAddress := s._twiaddr, txBuffer := [],
          trace := w.trace ++ [BusEvent.transaction s._twiaddr
            [0x02, (c <<< 4) &&& 0xF0, (c >>> 4) &&& 0xFF]] }) := by
  obtain ⟨c, hc, hd⟩ := outputDigital_bounded s hinv m
  refine ⟨c, hd, hc, ?_, _, output_of_outputDigital s w m hd hc⟩
  rw [output_mA_accept _ w hc]
  have : (0 : ℚ) ≤ (c : ℚ) / 4095 * 20 := by positivity
  intro h
  simp only at h
  linarith

/-- Witness for C16: a device calibrated with `(800, 3200)` asked for 25 mA. -/
theorem output_never_rejected_witness :
    ((⟨0x58, true, 800, 3200, 0⟩ : DFRobot_GP8302)._calibration = true →
      (⟨0x58, true, 800, 3200, 0⟩ : DFRobot_GP8302)._dac_4
          < (⟨0x58, true, 800, 3200, 0⟩ : DFRobot_GP8302)._dac_20 ∧
        (⟨0x58, true, 800, 3200, 0⟩ : DFRobot_GP8302)._dac_20 ≤ 4095) ∧
    ∃ c : ℕ, outputDigital ⟨0x58, true, 800, 3200, 0⟩ 25 = some c ∧ c ≤ 4095 ∧
      (output_mA ⟨0x58, true, 800, 3200, c⟩ ⟨0, [], []⟩ c).1 ≠ -1 ∧
      ∃ v : ℕ, output ⟨0x58, true, 800, 3200, 0⟩ ⟨0, [], []⟩ 25
        = some (v, ⟨0x58, true, 800, 3200, c⟩,
          { txAddress := 0x58, txBuffer := [],
            trace := [] ++ [BusEvent.transaction 0x58
              [0x02, (c <<< 4) &&& 0xF0, (c >>> 4) &&& 0xFF]] }) :=
  ⟨fun _ => ⟨by decide, by decide⟩,
    output_never_rejected ⟨0x58, true, 800, 3200, 0⟩ ⟨0, [], []⟩ 25
      (fun _ => ⟨by decide, by decide⟩)⟩

/-! ## Monotonicity and quantisation error -/

/-- Claim C18: for `m1 ≤ m2` the code `output` programs for `m1` is at most the code it
programs for `m2`, on an uncalibrated device for all currents, and on a device calibrated
with `_dac_4 < _dac_20 ≤ 4095` when both currents lie in `[4, 20]`. -/
theorem output_monotone (s : DFRobot_GP8302) (w : TwoWire) (m1 m2 : ℚ) (hle : m1 ≤ m2)
    (hpath : s._calibration = false ∨
      (s._calibration = true ∧ s._dac_4 < s._dac_20 ∧ s._dac_20 ≤ 4095 ∧
        4 ≤ m1 ∧ m1 ≤ 20 ∧ 4 ≤ m2 ∧ m2 ≤ 20)) :
    ∃ r1 r2 : ℕ × DFRobot_GP8302 × TwoWire,
      output s w m1 = some r1 ∧ output s w m2 = some r2 ∧
      r1.2.1._digital ≤ r2.2.1._digital := by
  have hinv : s._calibration = true → s._dac_4 < s._dac_20 ∧ s._dac_20 ≤ 4095 := by
    rcases hpath with hf | ⟨_, hab, hb, _⟩
    · intro ht; rw [hf] at ht; exact absurd ht (by decide)
    · exact fun _ => ⟨hab, hb⟩
  obtain ⟨c1, hc1, hd1⟩ := outputDigital_bounded s hinv m1
  obtain ⟨c2, hc2, hd2⟩ := outputDigital_bounded s hinv m2
  refine ⟨_, _, output_of_outputDigital s w m1 hd1 hc1,
    output_of_outputDigital s w m2 hd2 hc2, ?_⟩
  show c1 ≤ c2
  rcases hpath with hf | ⟨ht, hab, hb, h41, h201, h42, h202⟩
  · rw [outputDigital_uncalibrated s hf m1] at hd1
    rw [outputDigital_uncalibrated s hf m2] at hd2
    have e1 := Option.some.inj hd1
    have e2 := Option.some.inj hd2
    rw [← e1, ← e2]
    exact direct_code_mono (max_le_max le_rfl (min_le_min hle le_rfl))
      (max_le (by norm_num) (min_le_right m2 20))
  · rw [outputDigital_calibrated s ht hab hb h41 h201] at hd1
    rw [outputDigital_calibrated s ht hab hb h42 h202] at hd2
    have e1 := Option.some.inj hd1
    have e2 := Option.some.inj hd2
    rw [← e1, ← e2]
    exact calibrated_code_mono (by omega) h41 hle h202

/-- Witness for C18: 5 mA and 17 mA on a device calibrated with `(800, 3200)`. -/
theorem output_monotone_witness :
    (5 : ℚ) ≤ 17 ∧
    ((⟨0x58, true, 800, 3200, 0⟩ : DFRobot_GP8302)._calibration = false ∨
      ((⟨0x58, true, 800, 3200, 0⟩ : DFRobot_GP8302)._calibration = true ∧
        (⟨0x58, true, 800, 3200, 0⟩ : DFRobot_GP8302)._dac_4
          < (⟨0x58, true, 800, 3200, 0⟩ : DFRobot_GP8302)._dac_20 ∧
        (⟨0x58, true, 800, 3200, 0⟩ : DFRobot_GP8302)._dac_20 ≤ 4095 ∧
        (4 : ℚ) ≤ 5 ∧ (5 : ℚ) ≤ 20 ∧ (4 : ℚ) ≤ 17 ∧ (17 : ℚ) ≤ 20)) ∧
    ∃ r1 r2 : ℕ × DFRobot_GP8302 × TwoWire,
      output ⟨0x58, true, 800, 3200, 0⟩ ⟨0, [], []⟩ 5 = some r1 ∧
      output ⟨0x58, true, 800, 3200, 0⟩ ⟨0, [], []⟩ 17 = some r2 ∧
      r1.2.1._digital ≤ r2.2.1._digital :=
  ⟨by norm_num,
    Or.inr ⟨rfl, by decide, by decide, by norm_num, by norm_num, by norm_num, by norm_num⟩,
    output_monotone ⟨0x58, true, 800, 3200, 0⟩ ⟨0, [], []⟩ 5 17 (by norm_num)
      (Or.inr ⟨rfl, by decide, by decide, by norm_num, by norm_num, by norm_num,
        by norm_num⟩)⟩

/-- Counterexample for C19: `9426941 / 524288` is a binary32 value in `[0, 20]`; a fresh
device programs code 3682 for it, and `3682 * 20 / 4095` is farther than `10 / 4095` from
it. -/
theorem output_quantisation_error_counterexample :
    fl32 (9426941 / 524288) = 9426941 / 524288 ∧
    (0 : ℚ) ≤ 9426941 / 524288 ∧ (9426941 / 524288 : ℚ) ≤ 20 ∧
    (output (DFRobot_GP8302.new 0x58) ⟨0, [], []⟩ (9426941 / 524288)).map
      (fun r => r.2.1._digital) = some 3682 ∧
    (10 : ℚ) / 4095 < |((3682 : ℕ) : ℚ) * 20 / 4095 - 9426941 / 524288| := by
  refine ⟨?_, by norm_num, by norm_num, ?_, ?_⟩
  · have h := roundNearestEven_of_repr 23 (-126) 9426941 (-19) (by norm_num)
      (by norm_num)
    have e : ((9426941 : ℕ) : ℚ) * 2 ^ (-19 : ℤ) = 9426941 / 524288 := by norm_num
    rw [e] at h
    exact h
  · rw [output_of_outputDigital _ _ _ (outputDigital_near_3681 _ rfl) (by decide)]
    rfl
  · rw [lt_abs]
    left
    norm_num

/-- Claim C19, amended: on an uncalibrated device and for `0 ≤ m ≤ 20`, the effective
current of the code `output` programs, `code * 20 / 4095`, is within
`(10 + 1/50) / 4095` of `m`: half a code step plus a fiftieth of one. -/
theorem output_quantisation_error (s : DFRobot_GP8302) (w : TwoWire) (m : ℚ)
    (hcal : s._calibration = false) (h0 : 0 ≤ m) (h20 : m ≤ 20) :
    ∃ r : ℕ × DFRobot_GP8302 × TwoWire, output s w m = some r ∧
      |(r.2.1._digital : ℚ) * 20 / 4095 - m| ≤ (10 + 1 / 50) / 4095 := by
  have hd := outputDigital_direct s h0 h20 (by simp [hcal])
  have hle := direct_code_le h0 h20
  obtain ⟨c, hd, hle, hc1, hc2⟩ : ∃ c : ℕ, outputDigital s m = some c ∧ c ≤ 4095 ∧
      (c : ℚ) - m * 4095 / 20 ≤ 1 / 2 + 1 / 1000 ∧
      m * 4095 / 20 - (c : ℚ) ≤ 1 / 2 + 1 / 1000 :=
    ⟨_, hd, hle, direct_code_close h0 h20⟩
  refine ⟨_, output_of_outputDigital s w m hd hle, ?_⟩
  show |(c : ℚ) * 20 / 4095 - m| ≤ (10 + 1 / 50) / 4095
  rw [abs_le]
  constructor <;> linarith

/-- Witness for the amended C19: a fresh device asked for `29 / 4` mA. -/
theorem output_quantisation_error_witness :
    (DFRobot_GP8302.new 0x58)._calibration = false ∧ (0 : ℚ) ≤ 29 / 4 ∧
    (29 / 4 : ℚ) ≤ 20 ∧
    ∃ r : ℕ × DFRobot_GP8302 × TwoWire,
      output (DFRobot_GP8302.new 0x58) ⟨0, [], []⟩ (29 / 4) = some r ∧
      |(r.2.1._digital : ℚ) * 20 / 4095 - 29 / 4| ≤ (10 + 1 / 50) / 4095 :=
  ⟨rfl, by norm_num, by norm_num,
    output_quantisation_error (DFRobot_GP8302.new 0x58) ⟨0, [], []⟩ (29 / 4) rfl
      (by norm_num) (by norm_num)⟩

end GP8302
